import Mathlib

/-! KeyCopier: bitting model, depth adjustment and blade renderer.

A shallow embedding of `app.c`: the game model, the format-selection
callback, the input callback of the game view and the draw callback.

Conventions of the embedding.

* `uint8_t` objects (`pin_slc`, `total_pin`, the cells of `depth`) are natural
  numbers; every store into one is reduced modulo `256`.
* `int` objects, the integer fields of a format among them, are integers.
  Operands of type `uint8_t` are promoted to `int` before arithmetic and
  comparison, as in C.
* A function that reads or writes outside the `depth` block, or whose loop never
  ends, returns `none`.
* The `double` expressions of the draw callback are not evaluated: each
  `(int)round(...)` expression is a field of `PixelScale`.
-/

namespace KeyCopier

/-! ## Data model -/

/-- Modelled from the spec: the `KeyFormat` record, declared in `key_formats.h`,
which is not part of the sources at hand.  The fields are the ones `app.c`
reads.  The integer fields are integers (C `int`: `app.c` assigns
`min_depth_ind` to the `int` variable `next_depth` and compares the others with
promoted `uint8_t` values); the physical dimensions are the decimal constants of
the format table. -/
structure KeyFormat where
  first_pin_inch : ℚ
  last_pin_inch : ℚ
  pin_increment_inch : ℚ
  pin_num : Int
  pin_width_inch : ℚ
  uncut_depth_inch : ℚ
  deepest_depth_inch : ℚ
  depth_step_inch : ℚ
  min_depth_ind : Int
  max_depth_ind : Int
  macs : Int
  clearance : Int
deriving DecidableEq

/-- The record `KeyMakerGameModel`.  `depth` is the heap block the pointer
designates (the empty list stands for `NULL`). -/
structure KeyMakerGameModel where
  format_index : Nat
  key_name_str : String
  pin_slc : Nat
  total_pin : Nat
  depth : List Nat
  format : KeyFormat
deriving DecidableEq

/-- Conversion of an `int` to `uint8_t`. -/
def to_u8 (x : Int) : Nat := (x % 256).toNat

/-- The read `depth[i]` for an `int` index `i`. -/
def rd (depth : List Nat) (i : Int) : Option Nat :=
  if 0 ≤ i then depth[i.toNat]? else none

/-- The block `malloc(n)` returns: `n` cells whose contents `junk` are
whatever the allocator left there; a negative request does not yield a block. -/
def malloc (junk : Nat → Nat) (n : Int) : Option (List Nat) :=
  if 0 ≤ n then some ((List.range n.toNat).map junk) else none

/-! ## Initialisation -/

/-- `initialize_format`. -/
def initialize_format (all_formats : List KeyFormat) (model : KeyMakerGameModel) :
    Option KeyMakerGameModel :=
  match all_formats[0]? with
  | some f => some { model with format_index := 0, format := f }
  | none => none

/-- The loop `for(uint8_t i = 0; i <= pin_num; i++) depth[i] = min_depth_ind;`
of `initialize_model`, started at counter `i`.  The counter has 256 values, so a
run of more than 256 iterations never ends: `fuel = 257` decides
termination. -/
def fill_depth (pin_num min_depth_ind : Int) : Nat → Nat → List Nat → Option (List Nat)
  | 0, _, _ => none
  | fuel + 1, i, depth =>
    if (i : Int) ≤ pin_num then
      if i < depth.length then
        fill_depth pin_num min_depth_ind fuel ((i + 1) % 256) (depth.set i (to_u8 min_depth_ind))
      else none
    else some depth

/-- `initialize_model`. -/
def initialize_model (junk : Nat → Nat) (all_formats : List KeyFormat)
    (model : KeyMakerGameModel) : Option KeyMakerGameModel :=
  match initialize_format all_formats model with
  | none => none
  | some model1 =>
    match malloc junk (model1.format.pin_num + 1) with
    | none => none
    | some block =>
      match fill_depth model1.format.pin_num model1.format.min_depth_ind 257 0 block with
      | none => none
      | some depth => some { model1 with depth := depth }

/-- The record `view_allocate_model` hands to `key_maker_app_alloc`: every byte
zero, `depth` a null pointer. -/
def blank_model : KeyMakerGameModel :=
  { format_index := 0, key_name_str := "", pin_slc := 0, total_pin := 0, depth := [],
    format :=
      { first_pin_inch := 0, last_pin_inch := 0, pin_increment_inch := 0, pin_num := 0,
        pin_width_inch := 0, uncut_depth_inch := 0, deepest_depth_inch := 0,
        depth_step_inch := 0, min_depth_ind := 0, max_depth_ind := 0, macs := 0,
        clearance := 0 } }

/-- The part of `key_maker_app_alloc` that sets the game model up:
`initialize_model`, then `key_name_str`, `pin_slc = 1` and
`total_pin = format.pin_num`. -/
def key_maker_app_alloc (junk : Nat → Nat) (all_formats : List KeyFormat) :
    Option KeyMakerGameModel :=
  match initialize_model junk all_formats blank_model with
  | none => none
  | some model =>
    some { model with key_name_str := "Key 1", pin_slc := 1,
                      total_pin := to_u8 model.format.pin_num }

/-! ## Format selection -/

/-- `key_maker_total_pin_change`, for the index `format_index` the list item
reports (a `uint8_t`). -/
def key_maker_total_pin_change (junk : Nat → Nat) (all_formats : List KeyFormat)
    (format_index : Nat) (model : KeyMakerGameModel) : Option KeyMakerGameModel :=
  match all_formats[format_index]? with
  | none => none
  | some f =>
    let total_pin := to_u8 f.pin_num
    match malloc junk ((total_pin : Int) + 1) with
    | none => none
    | some block =>
      some { model with format_index := format_index, format := f,
                        total_pin := total_pin, depth := block }

/-! ## Input callback of the game view -/

inductive InputType where
  | Press | Release | Short | Long | Repeat
deriving DecidableEq

inductive InputKey where
  | Up | Down | Right | Left | Ok | Back
deriving DecidableEq

structure InputEvent where
  type : InputType
  key : InputKey
deriving DecidableEq

/-- The statement `model->depth[model->pin_slc - 1]--`. -/
def depth_dec (model : KeyMakerGameModel) : Option KeyMakerGameModel :=
  match rd model.depth ((model.pin_slc : Int) - 1) with
  | none => none
  | some v =>
    some { model with depth := model.depth.set (model.pin_slc - 1) (to_u8 ((v : Int) - 1)) }

/-- The statement `model->depth[model->pin_slc - 1]++`. -/
def depth_inc (model : KeyMakerGameModel) : Option KeyMakerGameModel :=
  match rd model.depth ((model.pin_slc : Int) - 1) with
  | none => none
  | some v =>
    some { model with depth := model.depth.set (model.pin_slc - 1) (to_u8 ((v : Int) + 1)) }

/-- The test `depth[a] - depth[b] < macs`. -/
def macs_test (model : KeyMakerGameModel) (a b : Int) : Option Bool :=
  match rd model.depth a, rd model.depth b with
  | some x, some y => some (decide ((x : Int) - (y : Int) < model.format.macs))
  | _, _ => none

/-- The `InputKeyLeft` case. -/
def input_left (model : KeyMakerGameModel) : KeyMakerGameModel :=
  if model.pin_slc > 1 then { model with pin_slc := model.pin_slc - 1 } else model

/-- The `InputKeyRight` case. -/
def input_right (model : KeyMakerGameModel) : KeyMakerGameModel :=
  if (model.pin_slc : Int) < model.format.pin_num then
    { model with pin_slc := (model.pin_slc + 1) % 256 }
  else model

/-- The `InputKeyUp` case. -/
def input_up (model : KeyMakerGameModel) : Option KeyMakerGameModel :=
  let p : Int := model.pin_slc
  match rd model.depth (p - 1) with
  | none => none
  | some cur =>
    if (cur : Int) > model.format.min_depth_ind then
      if model.pin_slc = 1 then
        match macs_test model p (p - 1) with
        | none => none
        | some true => depth_dec model
        | some false => some model
      else if p = model.format.pin_num then
        match macs_test model (p - 2) (p - 1) with
        | none => none
        | some true => depth_dec model
        | some false => some model
      else
        match macs_test model p (p - 1) with
        | none => none
        | some false => some model
        | some true =>
          match macs_test model (p - 2) (p - 1) with
          | none => none
          | some true => depth_dec model
          | some false => some model
    else some model

/-- The `InputKeyDown` case. -/
def input_down (model : KeyMakerGameModel) : Option KeyMakerGameModel :=
  let p : Int := model.pin_slc
  match rd model.depth (p - 1) with
  | none => none
  | some cur =>
    if (cur : Int) < model.format.max_depth_ind then
      if model.pin_slc = 1 then
        match macs_test model (p - 1) p with
        | none => none
        | some true => depth_inc model
        | some false => some model
      else if p = model.format.pin_num then
        match macs_test model (p - 1) (p - 2) with
        | none => none
        | some true => depth_inc model
        | some false => some model
      else
        match macs_test model (p - 1) p with
        | none => none
        | some false => some model
        | some true =>
          match macs_test model (p - 1) (p - 2) with
          | none => none
          | some true => depth_inc model
          | some false => some model
    else some model

/-- `key_maker_view_game_input_callback`: the model after the event and the
value returned. -/
def key_maker_view_game_input_callback (event : InputEvent) (model : KeyMakerGameModel) :
    Option (KeyMakerGameModel × Bool) :=
  match event.type, event.key with
  | InputType.Short, InputKey.Left => some (input_left model, false)
  | InputType.Short, InputKey.Right => some (input_right model, false)
  | InputType.Short, InputKey.Up => (input_up model).map (fun m => (m, false))
  | InputType.Short, InputKey.Down => (input_down model).map (fun m => (m, false))
  | InputType.Press, InputKey.Ok => some (model, true)
  | _, _ => some (model, false)

/-- The model after a sequence of events, delivered in order. -/
def run_inputs : List InputEvent → KeyMakerGameModel → Option KeyMakerGameModel
  | [], model => some model
  | e :: es, model =>
    match key_maker_view_game_input_callback e model with
    | none => none
    | some (model1, _) => run_inputs es model1

def short (k : InputKey) : InputEvent := { type := InputType.Short, key := k }


/-! ## Draw callback of the game view -/

/-- A call of `canvas_draw_line` or `canvas_draw_str`, with its arguments. -/
inductive Primitive where
  | line (x1 y1 x2 y2 : Int)
  | str (x y : Int) (s : String)
deriving DecidableEq

/-- The `(int)round(...)` expressions of the draw callback, as functions of the
integers they depend on.
* `half_width f` is `(int)round(f.pin_width_inch / inches_per_pixel / 2)`;
* `pin_step f` is `(int)round(f.pin_increment_inch / inches_per_pixel)`;
* `pin_center f n` is
  `(int)round((f.first_pin_inch + (n - 1) * f.pin_increment_inch) / inches_per_pixel)`;
* `top_contour f` is `(int)round(63 - f.uncut_depth_inch / inches_per_pixel)`;
* `depth_pixel f d` is `(int)round(d * f.depth_step_inch / inches_per_pixel)`;
* `level_contour f` is
  `(int)round((f.last_pin_inch + f.pin_increment_inch) / inches_per_pixel - 4)`;
* `round_product n d s` is `round(((double)n / (double)d) * s)` converted to `int`. -/
structure PixelScale where
  half_width : KeyFormat → Int
  pin_step : KeyFormat → Int
  pin_center : KeyFormat → Int → Int
  top_contour : KeyFormat → Int
  depth_pixel : KeyFormat → Int → Int
  level_contour : KeyFormat → Int
  round_product : Int → Int → Int → Int

/-- The objects that outlive a call of the draw callback: the function-local
`static bool initialized` and the globals `pin_half_width_pixel` and
`pin_step_pixel`. -/
structure DrawStatics where
  initialized : Bool
  pin_half_width_pixel : Int
  pin_step_pixel : Int
deriving DecidableEq

/-- The statics at program start. -/
def DrawStatics.start : DrawStatics :=
  { initialized := false, pin_half_width_pixel := 0, pin_step_pixel := 0 }

/-- What one iteration of the pin loop draws, in the order of the calls, and the
two accumulators after it. -/
structure PinDrawing where
  guide : Primitive
  shoulder : Primitive
  left_edge : Option Primitive
  left_wall : Primitive
  right_wall : Primitive
  post_extra_x_pixel : Int
  pre_extra_x_pixel : Int
deriving DecidableEq

def PinDrawing.prims (d : PinDrawing) : List Primitive :=
  [d.guide, d.shoulder] ++ d.left_edge.toList ++ [d.left_wall, d.right_wall]

/-- The body of the loop over `current_pin`.  `hw` is the global
`pin_half_width_pixel`, `step` the local `pin_step_pixel`.  For `current_pin = 1`
the value read from `depth[current_pin - 2]` is replaced by `0` before any use,
so that read is left out. -/
def draw_pin (px : PixelScale) (hw step : Int) (my_model : KeyMakerGameModel)
    (current_pin : Nat) (post_extra_x_pixel pre_extra_x_pixel : Int) : Option PinDrawing :=
  let my_format := my_model.format
  let pin_center_pixel := px.pin_center my_format current_pin
  let top_contour_pixel := px.top_contour my_format
  match rd my_model.depth ((current_pin : Int) - 1) with
  | none => none
  | some cur =>
    let current_depth : Int := (cur : Int) - my_format.min_depth_ind
    let current_depth_pixel := px.depth_pixel my_format current_depth
    match (if current_pin = 1 then some 0
           else (rd my_model.depth ((current_pin : Int) - 2)).map
                  (fun v => (v : Int) - my_format.min_depth_ind)) with
    | none => none
    | some last_depth =>
      match rd my_model.depth (current_pin : Int) with
      | none => none
      | some nxt =>
        let next_depth : Int :=
          if current_pin = my_model.total_pin then my_format.min_depth_ind
          else (nxt : Int) - my_format.min_depth_ind
        let pre1 : Int :=
          if current_pin = 1 then max (current_depth_pixel + hw) 0 else pre_extra_x_pixel
        let left_intersect : Bool :=
          decide (last_depth + current_depth > my_format.clearance) &&
            decide (current_depth ≠ my_format.min_depth_ind)
        let pre2 : Int :=
          if left_intersect then
            (if current_pin ≠ 1 then max (step - post_extra_x_pixel) hw else pre1)
          else pre1
        let right_intersect : Bool :=
          decide (current_depth + next_depth > my_format.clearance) &&
            decide (current_depth ≠ my_format.min_depth_ind)
        let post1 : Int :=
          if right_intersect then
            max (px.round_product current_depth (current_depth + next_depth) step) hw
          else post_extra_x_pixel
        some
          { guide := Primitive.line pin_center_pixel 20 pin_center_pixel 50
            shoulder := Primitive.line (pin_center_pixel - hw)
              (top_contour_pixel + current_depth_pixel) (pin_center_pixel + hw)
              (top_contour_pixel + current_depth_pixel)
            left_edge :=
              if current_pin = 1 then
                some (Primitive.line 0 top_contour_pixel
                  (pin_center_pixel - hw - current_depth_pixel) top_contour_pixel)
              else none
            left_wall :=
              if left_intersect then
                Primitive.line (pin_center_pixel - pre2)
                  (top_contour_pixel + current_depth_pixel - (pre2 - hw))
                  (pin_center_pixel - hw) (top_contour_pixel + current_depth_pixel)
              else
                Primitive.line (pin_center_pixel - hw - current_depth_pixel) top_contour_pixel
                  (pin_center_pixel - hw) (top_contour_pixel + current_depth_pixel)
            right_wall :=
              if right_intersect then
                Primitive.line (pin_center_pixel + hw) (top_contour_pixel + current_depth_pixel)
                  (pin_center_pixel + post1)
                  (top_contour_pixel + current_depth_pixel - (post1 - hw))
              else
                Primitive.line (pin_center_pixel + hw) (top_contour_pixel + current_depth_pixel)
                  (pin_center_pixel + hw + current_depth_pixel) top_contour_pixel
            post_extra_x_pixel := post1
            pre_extra_x_pixel := pre2 }

/-- The loop `for (current_pin = 1; current_pin <= total_pin; current_pin += 1)`:
`count` iterations starting at `current_pin`. -/
def draw_pins (px : PixelScale) (hw step : Int) (my_model : KeyMakerGameModel) :
    Nat → Nat → Int → Int → Option (List PinDrawing)
  | 0, _, _, _ => some []
  | count + 1, current_pin, post, pre =>
    match draw_pin px hw step my_model current_pin post pre with
    | none => none
    | some d =>
      match draw_pins px hw step my_model count (current_pin + 1)
          d.post_extra_x_pixel d.pre_extra_x_pixel with
      | none => none
      | some ds => some (d :: ds)

/-- The loop that fills `depth_str`: `count` iterations from index `i`, with
`acc` the characters written so far.  A number that does not fit in the room
left is cut by `snprintf` and ends the loop. -/
def depth_str_loop (buffer_size : Nat) (depth : List Nat) :
    Nat → Nat → List Char → Option (List Char)
  | 0, _, acc => some acc
  | count + 1, i, acc =>
    match depth[i]? with
    | none => none
    | some v =>
      let digits := Nat.toDigits 10 v
      let room := buffer_size - acc.length
      if digits.length ≥ room then some (acc ++ digits.take (room - 1))
      else depth_str_loop buffer_size depth count (i + 1) (acc ++ digits)

/-- The string the final `canvas_draw_str` receives. -/
def depth_readout (my_model : KeyMakerGameModel) : Option String :=
  (depth_str_loop (my_model.total_pin + 1) my_model.depth my_model.total_pin 0 []).map
    (fun cs => "depth: " ++ String.mk cs)

/-- `key_maker_view_game_draw_callback`: the statics after the call and the
primitives drawn, in order. -/
def key_maker_view_game_draw_callback (px : PixelScale) (st : DrawStatics)
    (my_model : KeyMakerGameModel) : Option (DrawStatics × List Primitive) :=
  let my_format := my_model.format
  let st1 : DrawStatics :=
    if st.initialized then st
    else { initialized := true, pin_half_width_pixel := px.half_width my_format,
           pin_step_pixel := px.pin_step my_format }
  let pin_step_pixel := px.pin_step my_format
  match draw_pins px st1.pin_half_width_pixel pin_step_pixel my_model my_model.total_pin 1 0 0 with
  | none => none
  | some ds =>
    let level_contour_pixel := px.level_contour my_format
    let step_pixel := px.pin_step my_format
    let slc_pin_pixel := px.pin_center my_format my_model.pin_slc
    match depth_readout my_model with
    | none => none
    | some xstr =>
      some (st1,
        (ds.map PinDrawing.prims).flatten ++
          [Primitive.line 0 62 level_contour_pixel 62,
           Primitive.line level_contour_pixel 62 (level_contour_pixel + step_pixel)
             (62 - step_pixel),
           Primitive.str (slc_pin_pixel - 2) 18 "*",
           Primitive.str 0 10 xstr])

/-! ## Predicates used in the statements -/

/-- Every cell of the block holds a `uint8_t` value. -/
def is_u8 (d : List Nat) : Prop := ∀ (i v : Nat), d[i]? = some v → v < 256

/-- The model with cell `j` of the block overwritten by `x`, converted to
`uint8_t`. -/
def with_cell (m : KeyMakerGameModel) (j : Nat) (x : Int) : KeyMakerGameModel :=
  { m with depth := m.depth.set j (to_u8 x) }

/-- What a committed `InputKeyUp` looks like: the cursor is on cell `j`, which
held `v` above `min_depth_ind`; the cell now holds `v - 1`; the right neighbour
passed its test when the cursor is on pin 1 or not on the last pin, the left
neighbour when the cursor is not on pin 1. -/
def up_commit (m m1 : KeyMakerGameModel) : Prop :=
  ∃ j v, m.pin_slc = j + 1 ∧ m.depth[j]? = some v ∧ m.format.min_depth_ind < (v : Int) ∧
    m1 = { m with depth := m.depth.set j (to_u8 ((v : Int) - 1)) } ∧
    ((j = 0 ∨ ((j + 1 : Nat) : Int) ≠ m.format.pin_num) →
      ∃ w, m.depth[j + 1]? = some w ∧ (w : Int) - (v : Int) < m.format.macs) ∧
    (∀ i, j = i + 1 → ∃ u, m.depth[i]? = some u ∧ (u : Int) - (v : Int) < m.format.macs)

/-- What a committed `InputKeyDown` looks like: the cursor is on cell `j`, which
held `v` below `max_depth_ind`; the cell now holds `v + 1`; the neighbours passed
their tests as for `up_commit`. -/
def down_commit (m m1 : KeyMakerGameModel) : Prop :=
  ∃ j v, m.pin_slc = j + 1 ∧ m.depth[j]? = some v ∧ (v : Int) < m.format.max_depth_ind ∧
    m1 = { m with depth := m.depth.set j (to_u8 ((v : Int) + 1)) } ∧
    ((j = 0 ∨ ((j + 1 : Nat) : Int) ≠ m.format.pin_num) →
      ∃ w, m.depth[j + 1]? = some w ∧ (v : Int) - (w : Int) < m.format.macs) ∧
    (∀ i, j = i + 1 → ∃ u, m.depth[i]? = some u ∧ (v : Int) - (u : Int) < m.format.macs)

/-- The bitting invariant of the model: every real pin has a depth in
`[min_depth_ind, max_depth_ind]`, and adjacent real pins differ by at most
`macs`. -/
def bitting_ok (m : KeyMakerGameModel) : Prop :=
  (∀ i : Nat, (i : Int) < m.format.pin_num →
    ∃ v, m.depth[i]? = some v ∧
      m.format.min_depth_ind ≤ (v : Int) ∧ (v : Int) ≤ m.format.max_depth_ind) ∧
  (∀ i : Nat, (i : Int) + 1 < m.format.pin_num →
    ∃ v w, m.depth[i]? = some v ∧ m.depth[i + 1]? = some w ∧
      |(v : Int) - (w : Int)| ≤ m.format.macs)

/-- What every model reached from the initial one satisfies, for the format `f`
of the session: the block has `pin_num + 1` cells, the cursor is on a pin (or on
1 when there is none), every cell, the sentinel included, is in range, and
adjacent real pins are within `macs`. -/
def model_inv (f : KeyFormat) (m : KeyMakerGameModel) : Prop :=
  m.format = f ∧ (m.depth.length : Int) = f.pin_num + 1 ∧ f.pin_num ≤ 254 ∧
  1 ≤ m.pin_slc ∧ ((m.pin_slc : Int) ≤ f.pin_num ∨ m.pin_slc = 1) ∧
  (∀ (i v : Nat), m.depth[i]? = some v →
    f.min_depth_ind ≤ (v : Int) ∧ (v : Int) ≤ f.max_depth_ind) ∧
  (∀ (i v w : Nat), (i : Int) + 1 < f.pin_num → m.depth[i]? = some v →
    m.depth[i + 1]? = some w → |(v : Int) - (w : Int)| ≤ f.macs)

/-- A model over `f` with the cursor on pin `p`, pin `p` at `min_depth_ind + t`
and every other cell at `min_depth_ind`. -/
def deepened (f : KeyFormat) (p : Nat) (t : Int) (m : KeyMakerGameModel) : Prop :=
  m.format = f ∧ m.pin_slc = p ∧ (m.depth.length : Int) = f.pin_num + 1 ∧
  ∀ i : Nat, (i : Int) ≤ f.pin_num →
    ∃ v, m.depth[i]? = some v ∧
      (v : Int) = if i + 1 = p then f.min_depth_ind + t else f.min_depth_ind

/-! ## Sample data -/

/-- The C function `round` on exact values: to the nearest integer, halves away
from zero. -/
def c_round (q : ℚ) : Int := if 0 ≤ q then ⌊q + 1 / 2⌋ else -⌊-q + 1 / 2⌋

/-- `INCHES_PER_PIXEL`. -/
def inches_per_pixel : ℚ := 0.00978

/-- The pixel scale obtained when the `double` expressions are evaluated
exactly. -/
def exact_scale : PixelScale :=
  { half_width := fun f => c_round (f.pin_width_inch / inches_per_pixel / 2)
    pin_step := fun f => c_round (f.pin_increment_inch / inches_per_pixel)
    pin_center := fun f n =>
      c_round ((f.first_pin_inch + ((n : ℚ) - 1) * f.pin_increment_inch) / inches_per_pixel)
    top_contour := fun f => c_round (63 - f.uncut_depth_inch / inches_per_pixel)
    depth_pixel := fun f d => c_round ((d : ℚ) * f.depth_step_inch / inches_per_pixel)
    level_contour := fun f =>
      c_round ((f.last_pin_inch + f.pin_increment_inch) / inches_per_pixel - 4)
    round_product := fun n d s => c_round (((n : ℚ) / (d : ℚ)) * (s : ℚ)) }

/-- A format with the physical dimensions `app.c` defines (`FIRST_PIN_INCH`,
`LAST_PIN_INCH`, `PIN_INCREMENT_INCH`, `PIN_WIDTH_INCH`, `UNCUT_DEPTH_INCH`,
`DEEPEST_DEPTH_INCH`, `DEPTH_STEP_INCH`) and the given integer fields. -/
def sample_format (pin_num min_depth_ind max_depth_ind macs clearance : Int) : KeyFormat :=
  { first_pin_inch := 0.247, last_pin_inch := 0.997, pin_increment_inch := 0.15,
    pin_num := pin_num, pin_width_inch := 0.084, uncut_depth_inch := 0.329,
    deepest_depth_inch := 0.191, depth_step_inch := 0.023,
    min_depth_ind := min_depth_ind, max_depth_ind := max_depth_ind, macs := macs,
    clearance := clearance }

/-- A model over `f` with the given cursor and depth block. -/
def sample_model (f : KeyFormat) (pin_slc : Nat) (depth : List Nat) : KeyMakerGameModel :=
  { format_index := 0, key_name_str := "Key 1", pin_slc := pin_slc,
    total_pin := to_u8 f.pin_num, depth := depth, format := f }

/-- An allocator that hands out zero-filled blocks. -/
def zero_junk : Nat → Nat := fun _ => 0

/-- An allocator that hands out blocks filled with 9. -/
def nine_junk : Nat → Nat := fun _ => 9

/-- The format of the scenario in the spec: five pins, depths `0..9`,
`macs = 5`. -/
def scenario_format : KeyFormat := sample_format 5 0 9 5 8

/-- A five-pin format whose `min_depth_ind` is negative. -/
def negative_min_format : KeyFormat := sample_format 5 (-1) 5 4 8

/-- A one-pin format whose depth indices run from 1 to 256. -/
def wide_depth_format : KeyFormat := sample_format 1 1 256 256 8

/-- A five-pin format whose `max_depth_ind` lies below its `min_depth_ind`. -/
def inverted_format : KeyFormat := sample_format 5 5 3 4 8

/-- A five-pin format with a negative `macs`. -/
def negative_macs_format : KeyFormat := sample_format 5 0 9 (-1) 8

/-- The five-pin sample format with a narrower pin, `pin_width_inch = 0.031`. -/
def narrow_format : KeyFormat := { sample_format 5 0 9 5 8 with pin_width_inch := 0.031 }

/-- A table of two formats: five pins with depths `1..7`, six pins with depths
`0..9`. -/
def two_formats : List KeyFormat := [sample_format 5 1 7 4 3, sample_format 6 0 9 7 8]

/-- The scenario format with pin 3 at depth 4 between uncut neighbours, cursor
on pin 3. -/
def macs_edge_model : KeyMakerGameModel :=
  sample_model scenario_format 3 [0, 0, 4, 0, 0, 0]

/-- The scenario format with the last pin at depth 5, its left neighbour at 3,
cursor on the last pin. -/
def last_pin_model : KeyMakerGameModel :=
  sample_model scenario_format 5 [0, 0, 1, 3, 5, 0]

/-- The one pin of `wide_depth_format` at depth 255, cursor on it. -/
def wide_depth_model : KeyMakerGameModel :=
  sample_model wide_depth_format 1 [255, 1]

/-- A format of 256 pins, cursor on pin 255. -/
def wide_cursor_model : KeyMakerGameModel :=
  sample_model (sample_format 256 0 9 5 8) 255 (List.replicate 257 0)

/-- A model on the six-pin format of `two_formats`, edited, cursor on pin 6. -/
def edited_model : KeyMakerGameModel :=
  { sample_model (sample_format 6 0 9 7 8) 6 [3, 4, 5, 6, 7, 8, 0] with format_index := 1 }

/-- An uncut five-pin key on the scenario format. -/
def wide_model : KeyMakerGameModel :=
  sample_model scenario_format 1 [0, 0, 0, 0, 0, 0]

/-- An uncut five-pin key on `narrow_format`. -/
def narrow_model : KeyMakerGameModel := sample_model narrow_format 1 [0, 0, 0, 0, 0, 0]

/-- Six pins, depths `0..9`, `macs = 7`, `clearance = 5`: pin 1 at depth 6, pin 2
and the others uncut. -/
def uncut_neighbour_model : KeyMakerGameModel :=
  sample_model (sample_format 6 0 9 7 5) 1 [6, 0, 0, 0, 0, 0, 0]

/-- The value of the variable `next_depth` in the iteration for `current_pin`,
when `depth[current_pin]` holds `nxt`. -/
def next_depth_of (m : KeyMakerGameModel) (current_pin nxt : Nat) : Int :=
  if current_pin = m.total_pin then m.format.min_depth_ind
  else (nxt : Int) - m.format.min_depth_ind

/-- Six pins, depths `0..9`, `clearance = 5`: pins 3 and 4 both at depth 3. -/
def twin_cut_model : KeyMakerGameModel :=
  sample_model (sample_format 6 0 9 7 5) 1 [0, 0, 3, 3, 0, 0, 0]

/-- Six pins, depths `0..9`, `clearance = 3`: pin 1 at depth 3, pin 2 at depth 1. -/
def meeting_walls_model : KeyMakerGameModel :=
  sample_model (sample_format 6 0 9 7 3) 1 [3, 1, 0, 0, 0, 0, 0]

/-- Five pins with depths `0..10`, every pin at depth 10. -/
def two_digit_model : KeyMakerGameModel :=
  sample_model (sample_format 5 0 10 7 8) 1 [10, 10, 10, 10, 10, 0]

/-- Six pins, depths `0..9`, `clearance = 5`: pin 1 uncut, pin 2 at depth 6. -/
def stale_zero_model : KeyMakerGameModel :=
  sample_model (sample_format 6 0 9 7 5) 1 [0, 6, 0, 0, 0, 0, 0]

/-- Six pins, depths `0..9`, `clearance = 5`: pins 1 and 3 at depth 6, pin 2
uncut. -/
def stale_far_model : KeyMakerGameModel :=
  sample_model (sample_format 6 0 9 7 5) 1 [6, 0, 6, 0, 0, 0, 0]

/-- Five pins, depths `1..7`, `clearance = 3`: the last pin at raw depth 5, the
others at `min_depth_ind`. -/
def raw_min_model : KeyMakerGameModel :=
  sample_model (sample_format 5 1 7 4 3) 1 [1, 1, 1, 1, 5, 1]

/-- Five pins, depths `1..7`, `clearance = 3`: the last pin at raw depth 4, the
others at `min_depth_ind`. -/
def raw_min_edge_model : KeyMakerGameModel :=
  sample_model (sample_format 5 1 7 4 3) 1 [1, 1, 1, 1, 4, 1]

/-! ## Binary64 arithmetic -/

/-- Rounding to the nearest integer, a tie going to the even one. -/
def round_half_even (q : ℚ) : Int :=
  if q - ⌊q⌋ < 1 / 2 then ⌊q⌋
  else if 1 / 2 < q - ⌊q⌋ then ⌊q⌋ + 1
  else if ⌊q⌋ % 2 = 0 then ⌊q⌋ else ⌊q⌋ + 1

/-- The binade of a `double`: the exponent `e` with `2^e ≤ |q| < 2^(e+1)`, held at
`-1022` below the normal range (subnormal numbers and zero). -/
def binary64_exponent (q : ℚ) : Int := max (Int.log 2 |q|) (-1022)

/-- The `double` nearest to `q`, as a rational: IEEE 754 binary64, 53 significant
bits, round to nearest, ties to even.  A magnitude that rounds to `2^1024` or more,
which the format turns into an infinity, is returned as rounded. -/
def binary64 (q : ℚ) : ℚ :=
  (round_half_even (q / (2 : ℚ) ^ (binary64_exponent q - 52)) : ℚ)
    * (2 : ℚ) ^ (binary64_exponent q - 52)

/-- The pixel scale as the draw callback computes it.  The physical dimensions of
a format and `inches_per_pixel` are stored as `double`, every operation on them
rounds to binary64, an `int` converts to `double` exactly, and `round` then gives
an integer that the conversion to `int` keeps when it is in the range of `int`.
`round_product n d s` is `round(product)` for `numerator = (double)n`,
`denominator = (double)d` and `product = (numerator / denominator) * s`. -/
def binary64_scale : PixelScale :=
  { half_width := fun f =>
      c_round (binary64 (binary64 (binary64 f.pin_width_inch / binary64 inches_per_pixel) / 2))
    pin_step := fun f =>
      c_round (binary64 (binary64 f.pin_increment_inch / binary64 inches_per_pixel))
    pin_center := fun f n =>
      c_round (binary64 (binary64 (binary64 f.first_pin_inch
        + binary64 (((n : ℚ) - 1) * binary64 f.pin_increment_inch))
        / binary64 inches_per_pixel))
    top_contour := fun f =>
      c_round (binary64 (63 - binary64 (binary64 f.uncut_depth_inch / binary64 inches_per_pixel)))
    depth_pixel := fun f d =>
      c_round (binary64 (binary64 ((d : ℚ) * binary64 f.depth_step_inch)
        / binary64 inches_per_pixel))
    level_contour := fun f =>
      c_round (binary64 (binary64 (binary64 (binary64 f.last_pin_inch
        + binary64 f.pin_increment_inch) / binary64 inches_per_pixel) - 4))
    round_product := fun n d s =>
      c_round (binary64 (binary64 ((n : ℚ) / (d : ℚ)) * (s : ℚ))) }

/-! ## Reading the depth block -/

theorem rd_pred (d : List Nat) (j : Nat) : rd d (((j + 1 : Nat) : Int) - 1) = d[j]? := by
  have h : (((j + 1 : Nat) : Int) - 1) = (j : Int) := by omega
  rw [h]; simp [rd]

theorem rd_cast (d : List Nat) (j : Nat) : rd d (j : Int) = d[j]? := by
  simp [rd]

theorem rd_pred_pred (d : List Nat) (i : Nat) : rd d (((i + 1 + 1 : Nat) : Int) - 2) = d[i]? := by
  have h : (((i + 1 + 1 : Nat) : Int) - 2) = (i : Int) := by omega
  rw [h]; simp [rd]

theorem depth_dec_eq (m : KeyMakerGameModel) (j v : Nat) (hp : m.pin_slc = j + 1)
    (hv : m.depth[j]? = some v) :
    depth_dec m = some { m with depth := m.depth.set j (to_u8 ((v : Int) - 1)) } := by
  simp [depth_dec, hp, rd_cast, hv]

theorem depth_inc_eq (m : KeyMakerGameModel) (j v : Nat) (hp : m.pin_slc = j + 1)
    (hv : m.depth[j]? = some v) :
    depth_inc m = some { m with depth := m.depth.set j (to_u8 ((v : Int) + 1)) } := by
  simp [depth_inc, hp, rd_cast, hv]

theorem input_up_cases (m m1 : KeyMakerGameModel) (h : input_up m = some m1) :
    m1 = m ∨ up_commit m m1 := by
  unfold input_up at h
  rcases hp : m.pin_slc with _ | j
  · simp [hp, rd] at h
  · simp only [hp, rd_pred] at h
    rcases hv : m.depth[j]? with _ | v
    · simp [hv] at h
    · simp only [hv] at h
      split at h
      · rename_i hgt
        unfold up_commit
        rcases j with _ | i
        · simp only [macs_test, rd_cast, rd_pred, hv] at h
          rcases hw : m.depth[0 + 1]? with _ | w
          · simp [hw] at h
          · by_cases hc : (w : Int) - (v : Int) < m.format.macs
            · simp [hw, hc] at h
              rw [depth_dec_eq m 0 v hp hv] at h
              right
              refine ⟨0, v, hp, hv, hgt, (Option.some.inj h).symm, fun _ => ⟨w, hw, hc⟩, ?_⟩
              intro i hi; omega
            · simp [hw, hc] at h
              left; exact h.symm
        · simp only [macs_test, rd_cast, rd_pred, rd_pred_pred, hv] at h
          have h11 : ¬ (i + 1 + 1 = 1) := by omega
          simp only [h11, if_false] at h
          split at h
          · rename_i hlast
            rcases hu : m.depth[i]? with _ | u
            · simp [hu] at h
            · by_cases hc : (u : Int) - (v : Int) < m.format.macs
              · simp [hu, hc] at h
                rw [depth_dec_eq m (i + 1) v hp hv] at h
                right
                refine ⟨i + 1, v, hp, hv, hgt, (Option.some.inj h).symm, ?_, ?_⟩
                · intro hh; rcases hh with hh | hh
                  · omega
                  · exact absurd hlast hh
                · intro i' hi'
                  have : i' = i := by omega
                  subst this; exact ⟨u, hu, hc⟩
              · simp [hu, hc] at h
                left; exact h.symm
          · rename_i hlast
            rcases hw : m.depth[i + 1 + 1]? with _ | w
            · simp [hw] at h
            · by_cases hc : (w : Int) - (v : Int) < m.format.macs
              · rcases hu : m.depth[i]? with _ | u
                · simp [hw, hu, hc] at h
                · by_cases hc2 : (u : Int) - (v : Int) < m.format.macs
                  · simp [hw, hu, hc, hc2] at h
                    rw [depth_dec_eq m (i + 1) v hp hv] at h
                    right
                    refine ⟨i + 1, v, hp, hv, hgt, (Option.some.inj h).symm,
                      fun _ => ⟨w, hw, hc⟩, ?_⟩
                    intro i' hi'
                    have : i' = i := by omega
                    subst this; exact ⟨u, hu, hc2⟩
                  · simp [hw, hu, hc, hc2] at h
                    left; exact h.symm
              · simp [hw, hc] at h
                left; exact h.symm
      · left; simpa using h.symm

theorem input_down_cases (m m1 : KeyMakerGameModel) (h : input_down m = some m1) :
    m1 = m ∨ down_commit m m1 := by
  unfold input_down at h
  rcases hp : m.pin_slc with _ | j
  · simp [hp, rd] at h
  · simp only [hp, rd_pred] at h
    rcases hv : m.depth[j]? with _ | v
    · simp [hv] at h
    · simp only [hv] at h
      split at h
      · rename_i hgt
        unfold down_commit
        rcases j with _ | i
        · simp only [macs_test, rd_cast, rd_pred, hv] at h
          rcases hw : m.depth[0 + 1]? with _ | w
          · simp [hw] at h
          · by_cases hc : (v : Int) - (w : Int) < m.format.macs
            · simp [hw, hc] at h
              rw [depth_inc_eq m 0 v hp hv] at h
              right
              refine ⟨0, v, hp, hv, hgt, (Option.some.inj h).symm, fun _ => ⟨w, hw, hc⟩, ?_⟩
              intro i hi; omega
            · simp [hw, hc] at h
              left; exact h.symm
        · simp only [macs_test, rd_cast, rd_pred, rd_pred_pred, hv] at h
          have h11 : ¬ (i + 1 + 1 = 1) := by omega
          simp only [h11, if_false] at h
          split at h
          · rename_i hlast
            rcases hu : m.depth[i]? with _ | u
            · simp [hu] at h
            · by_cases hc : (v : Int) - (u : Int) < m.format.macs
              · simp [hu, hc] at h
                rw [depth_inc_eq m (i + 1) v hp hv] at h
                right
                refine ⟨i + 1, v, hp, hv, hgt, (Option.some.inj h).symm, ?_, ?_⟩
                · intro hh; rcases hh with hh | hh
                  · omega
                  · exact absurd hlast hh
                · intro i' hi'
                  have : i' = i := by omega
                  subst this; exact ⟨u, hu, hc⟩
              · simp [hu, hc] at h
                left; exact h.symm
          · rename_i hlast
            rcases hw : m.depth[i + 1 + 1]? with _ | w
            · simp [hw] at h
            · by_cases hc : (v : Int) - (w : Int) < m.format.macs
              · rcases hu : m.depth[i]? with _ | u
                · simp [hw, hu, hc] at h
                · by_cases hc2 : (v : Int) - (u : Int) < m.format.macs
                  · simp [hw, hu, hc, hc2] at h
                    rw [depth_inc_eq m (i + 1) v hp hv] at h
                    right
                    refine ⟨i + 1, v, hp, hv, hgt, (Option.some.inj h).symm,
                      fun _ => ⟨w, hw, hc⟩, ?_⟩
                    intro i' hi'
                    have : i' = i := by omega
                    subst this; exact ⟨u, hu, hc2⟩
                  · simp [hw, hu, hc, hc2] at h
                    left; exact h.symm
              · simp [hw, hc] at h
                left; exact h.symm
      · left; simpa using h.symm

/-! ## The branches of the depth cases, evaluated -/

theorem input_up_first (m : KeyMakerGameModel) (v w : Nat) (hp : m.pin_slc = 1)
    (hv : m.depth[0]? = some v) (hw : m.depth[1]? = some w) :
    input_up m = some (if m.format.min_depth_ind < (v : Int) ∧
        (w : Int) - (v : Int) < m.format.macs then with_cell m 0 ((v : Int) - 1) else m) := by
  have hd := depth_dec_eq m 0 v hp hv
  have r0 : rd m.depth ((1 : Int) - 1) = some v := by simpa [rd] using hv
  have r1 : rd m.depth (1 : Int) = some w := by simpa [rd] using hw
  unfold input_up
  simp only [hp, Nat.cast_one, r0, macs_test, r1, hd, with_cell]
  by_cases h1 : m.format.min_depth_ind < (v : Int)
  · by_cases h2 : (w : Int) - (v : Int) < m.format.macs
    · simp [h1, h2]
    · simp [h1, h2]
  · simp [h1]

theorem input_down_first (m : KeyMakerGameModel) (v w : Nat) (hp : m.pin_slc = 1)
    (hv : m.depth[0]? = some v) (hw : m.depth[1]? = some w) :
    input_down m = some (if (v : Int) < m.format.max_depth_ind ∧
        (v : Int) - (w : Int) < m.format.macs then with_cell m 0 ((v : Int) + 1) else m) := by
  have hd := depth_inc_eq m 0 v hp hv
  have r0 : rd m.depth ((1 : Int) - 1) = some v := by simpa [rd] using hv
  have r1 : rd m.depth (1 : Int) = some w := by simpa [rd] using hw
  unfold input_down
  simp only [hp, Nat.cast_one, r0, macs_test, r1, hd, with_cell]
  by_cases h1 : (v : Int) < m.format.max_depth_ind
  · by_cases h2 : (v : Int) - (w : Int) < m.format.macs
    · simp [h1, h2]
    · simp [h1, h2]
  · simp [h1]

theorem input_up_last (m : KeyMakerGameModel) (i u v : Nat) (hp : m.pin_slc = i + 2)
    (hn : ((i + 2 : Nat) : Int) = m.format.pin_num)
    (hu : m.depth[i]? = some u) (hv : m.depth[i + 1]? = some v) :
    input_up m = some (if m.format.min_depth_ind < (v : Int) ∧
        (u : Int) - (v : Int) < m.format.macs then with_cell m (i + 1) ((v : Int) - 1) else m) := by
  have hd := depth_dec_eq m (i + 1) v hp hv
  have r0 : rd m.depth (((i + 2 : Nat) : Int) - 1) = some v := by
    rw [← hv]; exact rd_pred m.depth (i + 1)
  have r2 : rd m.depth (((i + 2 : Nat) : Int) - 2) = some u := by
    rw [← hu]; exact rd_pred_pred m.depth i
  have h1 : ¬ (i + 2 = 1) := by omega
  unfold input_up
  simp only [hp, r0, h1, if_false]
  rw [if_pos hn]
  simp only [r0, r2, macs_test, hd, with_cell]
  by_cases h1 : m.format.min_depth_ind < (v : Int)
  · by_cases h2 : (u : Int) - (v : Int) < m.format.macs
    · simp [h1, h2]
    · simp [h1, h2]
  · simp [h1]

theorem input_down_last (m : KeyMakerGameModel) (i u v : Nat) (hp : m.pin_slc = i + 2)
    (hn : ((i + 2 : Nat) : Int) = m.format.pin_num)
    (hu : m.depth[i]? = some u) (hv : m.depth[i + 1]? = some v) :
    input_down m = some (if (v : Int) < m.format.max_depth_ind ∧
        (v : Int) - (u : Int) < m.format.macs then with_cell m (i + 1) ((v : Int) + 1) else m) := by
  have hd := depth_inc_eq m (i + 1) v hp hv
  have r0 : rd m.depth (((i + 2 : Nat) : Int) - 1) = some v := by
    rw [← hv]; exact rd_pred m.depth (i + 1)
  have r2 : rd m.depth (((i + 2 : Nat) : Int) - 2) = some u := by
    rw [← hu]; exact rd_pred_pred m.depth i
  have h1 : ¬ (i + 2 = 1) := by omega
  unfold input_down
  simp only [hp, r0, h1, if_false]
  rw [if_pos hn]
  simp only [r0, r2, macs_test, hd, with_cell]
  by_cases h1 : (v : Int) < m.format.max_depth_ind
  · by_cases h2 : (v : Int) - (u : Int) < m.format.macs
    · simp [h1, h2]
    · simp [h1, h2]
  · simp [h1]

theorem input_up_mid (m : KeyMakerGameModel) (i u v w : Nat) (hp : m.pin_slc = i + 2)
    (hn : ((i + 2 : Nat) : Int) ≠ m.format.pin_num)
    (hu : m.depth[i]? = some u) (hv : m.depth[i + 1]? = some v)
    (hw : m.depth[i + 2]? = some w) :
    input_up m = some (if m.format.min_depth_ind < (v : Int) ∧
        (w : Int) - (v : Int) < m.format.macs ∧ (u : Int) - (v : Int) < m.format.macs
        then with_cell m (i + 1) ((v : Int) - 1) else m) := by
  have hd := depth_dec_eq m (i + 1) v hp hv
  have r0 : rd m.depth (((i + 2 : Nat) : Int) - 1) = some v := by
    rw [← hv]; exact rd_pred m.depth (i + 1)
  have r2 : rd m.depth (((i + 2 : Nat) : Int) - 2) = some u := by
    rw [← hu]; exact rd_pred_pred m.depth i
  have r1 : rd m.depth ((i + 2 : Nat) : Int) = some w := by
    rw [← hw]; exact rd_cast m.depth (i + 2)
  have h1 : ¬ (i + 2 = 1) := by omega
  unfold input_up
  simp only [hp, r0, r1, r2, macs_test, hd, with_cell, h1, if_false, hn]
  by_cases h1 : m.format.min_depth_ind < (v : Int)
  · by_cases h2 : (w : Int) - (v : Int) < m.format.macs
    · by_cases h3 : (u : Int) - (v : Int) < m.format.macs
      · simp [h1, h2, h3]
      · simp [h1, h2, h3]
    · simp [h1, h2]
  · simp [h1]

theorem input_down_mid (m : KeyMakerGameModel) (i u v w : Nat) (hp : m.pin_slc = i + 2)
    (hn : ((i + 2 : Nat) : Int) ≠ m.format.pin_num)
    (hu : m.depth[i]? = some u) (hv : m.depth[i + 1]? = some v)
    (hw : m.depth[i + 2]? = some w) :
    input_down m = some (if (v : Int) < m.format.max_depth_ind ∧
        (v : Int) - (w : Int) < m.format.macs ∧ (v : Int) - (u : Int) < m.format.macs
        then with_cell m (i + 1) ((v : Int) + 1) else m) := by
  have hd := depth_inc_eq m (i + 1) v hp hv
  have r0 : rd m.depth (((i + 2 : Nat) : Int) - 1) = some v := by
    rw [← hv]; exact rd_pred m.depth (i + 1)
  have r2 : rd m.depth (((i + 2 : Nat) : Int) - 2) = some u := by
    rw [← hu]; exact rd_pred_pred m.depth i
  have r1 : rd m.depth ((i + 2 : Nat) : Int) = some w := by
    rw [← hw]; exact rd_cast m.depth (i + 2)
  have h1 : ¬ (i + 2 = 1) := by omega
  unfold input_down
  simp only [hp, r0, r1, r2, macs_test, hd, with_cell, h1, if_false, hn]
  by_cases h1 : (v : Int) < m.format.max_depth_ind
  · by_cases h2 : (v : Int) - (w : Int) < m.format.macs
    · by_cases h3 : (v : Int) - (u : Int) < m.format.macs
      · simp [h1, h2, h3]
      · simp [h1, h2, h3]
    · simp [h1, h2]
  · simp [h1]

/-! ## Progress: inside the block every depth case returns -/

theorem cell_exists (d : List Nat) (n : Int) (i : Nat) (hlen : (d.length : Int) = n + 1)
    (hi : (i : Int) ≤ n) : ∃ v, d[i]? = some v := by
  have h : i < d.length := by omega
  exact ⟨d[i], List.getElem?_eq_getElem h⟩

theorem input_up_total (m : KeyMakerGameModel) (j : Nat)
    (hlen : (m.depth.length : Int) = m.format.pin_num + 1)
    (hp : m.pin_slc = j + 1) (hpn : ((j + 1 : Nat) : Int) ≤ m.format.pin_num) :
    ∃ v, m.depth[j]? = some v ∧
      (input_up m = some m ∨
        (m.format.min_depth_ind < (v : Int) ∧
          input_up m = some (with_cell m j ((v : Int) - 1)))) := by
  obtain ⟨v, hv⟩ := cell_exists m.depth m.format.pin_num j hlen (by omega)
  obtain ⟨w, hw⟩ := cell_exists m.depth m.format.pin_num (j + 1) hlen (by omega)
  refine ⟨v, hv, ?_⟩
  rcases j with _ | i
  · rw [input_up_first m v w hp hv hw]
    split
    · rename_i h; exact Or.inr ⟨h.1, rfl⟩
    · exact Or.inl rfl
  · obtain ⟨u, hu⟩ := cell_exists m.depth m.format.pin_num i hlen (by omega)
    by_cases hn : ((i + 2 : Nat) : Int) = m.format.pin_num
    · rw [input_up_last m i u v hp hn hu hv]
      split
      · rename_i h; exact Or.inr ⟨h.1, rfl⟩
      · exact Or.inl rfl
    · rw [input_up_mid m i u v w hp hn hu hv hw]
      split
      · rename_i h; exact Or.inr ⟨h.1, rfl⟩
      · exact Or.inl rfl

theorem input_down_total (m : KeyMakerGameModel) (j : Nat)
    (hlen : (m.depth.length : Int) = m.format.pin_num + 1)
    (hp : m.pin_slc = j + 1) (hpn : ((j + 1 : Nat) : Int) ≤ m.format.pin_num) :
    ∃ v, m.depth[j]? = some v ∧
      (input_down m = some m ∨
        ((v : Int) < m.format.max_depth_ind ∧
          input_down m = some (with_cell m j ((v : Int) + 1)))) := by
  obtain ⟨v, hv⟩ := cell_exists m.depth m.format.pin_num j hlen (by omega)
  obtain ⟨w, hw⟩ := cell_exists m.depth m.format.pin_num (j + 1) hlen (by omega)
  refine ⟨v, hv, ?_⟩
  rcases j with _ | i
  · rw [input_down_first m v w hp hv hw]
    split
    · rename_i h; exact Or.inr ⟨h.1, rfl⟩
    · exact Or.inl rfl
  · obtain ⟨u, hu⟩ := cell_exists m.depth m.format.pin_num i hlen (by omega)
    by_cases hn : ((i + 2 : Nat) : Int) = m.format.pin_num
    · rw [input_down_last m i u v hp hn hu hv]
      split
      · rename_i h; exact Or.inr ⟨h.1, rfl⟩
      · exact Or.inl rfl
    · rw [input_down_mid m i u v w hp hn hu hv hw]
      split
      · rename_i h; exact Or.inr ⟨h.1, rfl⟩
      · exact Or.inl rfl

theorem to_u8_pred (v : Nat) (h : 1 ≤ v) (h2 : v < 256) : to_u8 ((v : Int) - 1) = v - 1 := by
  unfold to_u8; omega

theorem to_u8_succ (v : Nat) (h : v < 255) : to_u8 ((v : Int) + 1) = v + 1 := by
  unfold to_u8; omega

theorem to_u8_small (x : Int) (h0 : 0 ≤ x) (h1 : x ≤ 255) : ((to_u8 x : Nat) : Int) = x := by
  unfold to_u8; omega

/-! ## One depth adjustment -/

theorem callback_up (m : KeyMakerGameModel) :
    key_maker_view_game_input_callback (short InputKey.Up) m
      = (input_up m).map (fun m1 => (m1, false)) := rfl

theorem callback_down (m : KeyMakerGameModel) :
    key_maker_view_game_input_callback (short InputKey.Down) m
      = (input_down m).map (fun m1 => (m1, false)) := rfl

theorem is_u8_of_all (d : List Nat) (h : ∀ v ∈ d, v < 256) : is_u8 d := by
  intro i v hv
  exact h v (List.getElem?_mem hv)

theorem callback_up_some (m m1 : KeyMakerGameModel) (r : Bool)
    (h : key_maker_view_game_input_callback (short InputKey.Up) m = some (m1, r)) :
    input_up m = some m1 := by
  rw [callback_up] at h
  rcases hx : input_up m with _ | m2
  · simp [hx] at h
  · simp [hx] at h; rw [h.1]

theorem callback_down_some (m m1 : KeyMakerGameModel) (r : Bool)
    (h : key_maker_view_game_input_callback (short InputKey.Down) m = some (m1, r)) :
    input_down m = some m1 := by
  rw [callback_down] at h
  rcases hx : input_down m with _ | m2
  · simp [hx] at h
  · simp [hx] at h; rw [h.1]

theorem set_self_some (d : List Nat) (j v x : Nat) (hv : d[j]? = some v) :
    (d.set j x)[j]? = some x := by
  have hj : j < d.length := by
    rcases List.getElem?_eq_some.mp hv with ⟨h, _⟩
    exact h
  exact List.getElem?_set_self hj

/-! ## The MACS tests -/

theorem u8_dec_bound (u v : Nat) (macs : Int) (hv : v < 256)
    (h : (u : Int) - (v : Int) < macs) : (u : Int) - ((to_u8 ((v : Int) - 1) : Nat) : Int) ≤ macs := by
  unfold to_u8; omega

theorem u8_dec_abs (u v : Nat) (macs : Int) (hv : v < 256)
    (h : (u : Int) - (v : Int) < macs) (h1 : 1 ≤ v) (habs : |(v : Int) - (u : Int)| ≤ macs) :
    |((to_u8 ((v : Int) - 1) : Nat) : Int) - (u : Int)| ≤ macs := by
  rw [to_u8_pred v h1 hv]
  rw [abs_le] at habs ⊢
  omega

theorem u8_inc_abs (u v : Nat) (macs : Int)
    (h : (v : Int) - (u : Int) < macs) (h1 : v < 255) (habs : |(v : Int) - (u : Int)| ≤ macs) :
    |((to_u8 ((v : Int) + 1) : Nat) : Int) - (u : Int)| ≤ macs := by
  rw [to_u8_succ v h1]
  rw [abs_le] at habs ⊢
  omega

theorem u8_inc_bound (u v : Nat) (macs : Int) (hv : v < 256)
    (h : (v : Int) - (u : Int) < macs) : ((to_u8 ((v : Int) + 1) : Nat) : Int) - (u : Int) ≤ macs := by
  unfold to_u8; omega

/-! ## The initial model -/

theorem fill_depth_spins (pin_num min_depth_ind : Int) (hbig : 255 ≤ pin_num) :
    ∀ (fuel i : Nat) (d : List Nat), i < 256 → 256 ≤ d.length →
      fill_depth pin_num min_depth_ind fuel i d = none := by
  intro fuel
  induction fuel with
  | zero => intro i d _ _; rfl
  | succ k ih =>
    intro i d hi hd
    unfold fill_depth
    have h1 : (i : Int) ≤ pin_num := by omega
    have h2 : i < d.length := by omega
    simp only [h1, h2, if_true]
    apply ih
    · omega
    · rw [List.length_set]; exact hd

theorem fill_depth_fills (n : Nat) (min_depth_ind : Int) (hn : n ≤ 254) :
    ∀ (k fuel i : Nat) (d : List Nat), i + k = n + 1 → k < fuel → d.length = n + 1 →
      ∃ d1, fill_depth (n : Int) min_depth_ind fuel i d = some d1 ∧ d1.length = n + 1 ∧
        ∀ c : Nat, c < n + 1 →
          d1[c]? = if c < i then d[c]? else some (to_u8 min_depth_ind) := by
  intro k
  induction k with
  | zero =>
    intro fuel i d hik hf hd
    rcases fuel with _ | fuel
    · omega
    · unfold fill_depth
      have h1 : ¬ ((i : Int) ≤ (n : Int)) := by omega
      simp only [h1, if_false]
      refine ⟨d, rfl, hd, ?_⟩
      intro c hc
      have : c < i := by omega
      simp [this]
  | succ k ih =>
    intro fuel i d hik hf hd
    rcases fuel with _ | fuel
    · omega
    · unfold fill_depth
      have h1 : (i : Int) ≤ (n : Int) := by omega
      have h2 : i < d.length := by omega
      have h3 : (i + 1) % 256 = i + 1 := by omega
      simp only [h1, h2, if_true, h3]
      obtain ⟨d1, hd1, hlen, hcells⟩ :=
        ih fuel (i + 1) (d.set i (to_u8 min_depth_ind)) (by omega) (by omega)
          (by rw [List.length_set]; exact hd)
      refine ⟨d1, hd1, hlen, ?_⟩
      intro c hc
      rw [hcells c hc]
      by_cases hci : c < i
      · have : c < i + 1 := by omega
        simp only [this, hci, if_true]
        exact List.getElem?_set_ne (by omega)
      · by_cases hci2 : c = i
        · subst hci2
          simp only [Nat.lt_succ_self, if_true, hci, if_false]
          exact List.getElem?_set_self h2
        · have : ¬ (c < i + 1) := by omega
          simp only [this, hci, if_false]

theorem malloc_length (junk : Nat → Nat) (n : Int) (b : List Nat)
    (h : malloc junk n = some b) : 0 ≤ n ∧ (b.length : Int) = n := by
  unfold malloc at h
  split at h
  · rename_i h0
    have := Option.some.inj h
    subst this
    simp only [List.length_map, List.length_range]
    omega
  · cases h

/-- The initial model of a session over the table `all_formats`. -/
theorem app_alloc_cases (junk : Nat → Nat) (all_formats : List KeyFormat) (f : KeyFormat)
    (h0 : all_formats[0]? = some f) :
    (key_maker_app_alloc junk all_formats = none ∧ (f.pin_num < -1 ∨ 255 ≤ f.pin_num)) ∨
    (∃ m0, key_maker_app_alloc junk all_formats = some m0 ∧ m0.format = f ∧ m0.pin_slc = 1 ∧
      -1 ≤ f.pin_num ∧ f.pin_num ≤ 254 ∧ (m0.depth.length : Int) = f.pin_num + 1 ∧
      m0.total_pin = to_u8 f.pin_num ∧
      ∀ (i v : Nat), m0.depth[i]? = some v → v = to_u8 f.min_depth_ind) := by
  unfold key_maker_app_alloc initialize_model initialize_format
  simp only [h0, blank_model]
  rcases hb : malloc junk (f.pin_num + 1) with _ | block
  · left
    refine ⟨rfl, ?_⟩
    unfold malloc at hb
    split at hb
    · cases hb
    · left; omega
  · obtain ⟨hnn, hlen⟩ := malloc_length junk _ block hb
    simp only []
    by_cases hbig : 255 ≤ f.pin_num
    · left
      rw [fill_depth_spins f.pin_num f.min_depth_ind hbig 257 0 block (by omega) (by omega)]
      exact ⟨rfl, Or.inr hbig⟩
    · right
      by_cases hneg : f.pin_num = -1
      · have hnil : block = [] := by
          apply List.eq_nil_of_length_eq_zero; omega
        subst hnil
        have hfd : fill_depth f.pin_num f.min_depth_ind 257 0 [] = some [] := by
          unfold fill_depth
          have : ¬ (((0 : Nat) : Int) ≤ f.pin_num) := by omega
          simp only [this, if_false]
        rw [hfd]
        refine ⟨_, rfl, rfl, rfl, by omega, by omega, by simp [hneg], rfl, ?_⟩
        intro i v hv
        simp at hv
      · obtain ⟨n, hn⟩ : ∃ n : Nat, f.pin_num = (n : Int) := ⟨f.pin_num.toNat, by omega⟩
        obtain ⟨d1, hd1, hl1, hcells⟩ :=
          fill_depth_fills n f.min_depth_ind (by omega) (n + 1) 257 0 block (by omega)
            (by omega) (by omega)
        rw [hn, hd1]
        refine ⟨_, rfl, ?_, rfl, by omega, by omega, ?_, ?_, ?_⟩
        · simp only [hn]
        · simp only []; omega
        · simp only [hn]
        · intro i v hv
          simp only [] at hv
          have hi : i < n + 1 := by
            rcases List.getElem?_eq_some.mp hv with ⟨h, _⟩
            omega
          rw [hcells i hi] at hv
          simp only [Nat.not_lt_zero, if_false] at hv
          exact (Option.some.inj hv).symm

/-! ## The invariant is kept by every event -/

theorem model_inv_set (f : KeyFormat) (m : KeyMakerGameModel) (j v x : Nat)
    (hinv : model_inv f m) (hv : m.depth[j]? = some v)
    (hx : f.min_depth_ind ≤ (x : Int) ∧ (x : Int) ≤ f.max_depth_ind)
    (hl : ∀ i u, j = i + 1 → m.depth[i]? = some u → |(u : Int) - (x : Int)| ≤ f.macs)
    (hr : ((j + 1 : Nat) : Int) < f.pin_num →
      ∀ w, m.depth[j + 1]? = some w → |(x : Int) - (w : Int)| ≤ f.macs) :
    model_inv f { m with depth := m.depth.set j x } := by
  obtain ⟨hf, hlen, hpn, hp1, hp2, hrange, hadj⟩ := hinv
  have hj : j < m.depth.length := by
    rcases List.getElem?_eq_some.mp hv with ⟨h, _⟩
    exact h
  refine ⟨hf, ?_, hpn, hp1, hp2, ?_, ?_⟩
  · simp only [List.length_set]; exact hlen
  · intro i a ha
    simp only [List.getElem?_set] at ha
    by_cases hij : j = i
    · simp only [hij, if_true] at ha
      split at ha
      · have := Option.some.inj ha
        subst this; exact hx
      · cases ha
    · simp only [hij, if_false] at ha
      exact hrange i a ha
  · intro i a b hi ha hb
    simp only [List.getElem?_set] at ha hb
    by_cases hij : j = i
    · subst hij
      have hne : ¬ (j = j + 1) := by omega
      simp only [hj, if_true, hne, if_false] at ha hb
      have := Option.some.inj ha
      subst this
      exact hr (by omega) b hb
    · by_cases hij2 : j = i + 1
      · subst hij2
        have hne : ¬ (i + 1 = i) := by omega
        simp only [hj, if_true, hne, if_false] at ha hb
        have := Option.some.inj hb
        subst this
        exact hl i a rfl ha
      · simp only [hij, hij2, if_false] at ha hb
        exact hadj i a b hi ha hb

theorem model_inv_up (f : KeyFormat) (m m1 : KeyMakerGameModel)
    (hmin : 0 ≤ f.min_depth_ind) (hmax : f.max_depth_ind ≤ 255)
    (hinv : model_inv f m) (h : input_up m = some m1) : model_inv f m1 := by
  rcases input_up_cases m m1 h with h | h
  · rw [h]; exact hinv
  · obtain ⟨j, v, hp, hv, hgt, hm1, hright, hleft⟩ := h
    have hinv' := hinv
    obtain ⟨hf, hlen, hpn, hp1, hp2, hrange, hadj⟩ := hinv
    rw [hf] at hgt hright hleft
    have hvr := hrange j v hv
    have hx : to_u8 ((v : Int) - 1) = v - 1 := to_u8_pred v (by omega) (by omega)
    rw [hm1, hx]
    apply model_inv_set f m j v (v - 1) hinv' hv
    · omega
    · intro i u hji hu
      obtain ⟨u', hu', hlt⟩ := hleft i hji
      have : u' = u := by rw [hu] at hu'; exact (Option.some.inj hu').symm
      subst this
      have hold := hadj i u' v (by omega) hu (by rw [← hji]; exact hv)
      rw [abs_le] at hold ⊢
      omega
    · intro hlt w hw
      obtain ⟨w', hw', hlt'⟩ := hright (Or.inr (by omega))
      have : w' = w := by rw [hw] at hw'; exact (Option.some.inj hw').symm
      subst this
      have hold := hadj j v w' (by omega) hv hw
      rw [abs_le] at hold ⊢
      omega

theorem model_inv_down (f : KeyFormat) (m m1 : KeyMakerGameModel)
    (_hmin : 0 ≤ f.min_depth_ind) (hmax : f.max_depth_ind ≤ 255)
    (hinv : model_inv f m) (h : input_down m = some m1) : model_inv f m1 := by
  rcases input_down_cases m m1 h with h | h
  · rw [h]; exact hinv
  · obtain ⟨j, v, hp, hv, hgt, hm1, hright, hleft⟩ := h
    have hinv' := hinv
    obtain ⟨hf, hlen, hpn, hp1, hp2, hrange, hadj⟩ := hinv
    rw [hf] at hgt hright hleft
    have hvr := hrange j v hv
    have hx : to_u8 ((v : Int) + 1) = v + 1 := to_u8_succ v (by omega)
    rw [hm1, hx]
    apply model_inv_set f m j v (v + 1) hinv' hv
    · omega
    · intro i u hji hu
      obtain ⟨u', hu', hlt⟩ := hleft i hji
      have : u' = u := by rw [hu] at hu'; exact (Option.some.inj hu').symm
      subst this
      have hold := hadj i u' v (by omega) hu (by rw [← hji]; exact hv)
      rw [abs_le] at hold ⊢
      omega
    · intro hlt w hw
      obtain ⟨w', hw', hlt'⟩ := hright (Or.inr (by omega))
      have : w' = w := by rw [hw] at hw'; exact (Option.some.inj hw').symm
      subst this
      have hold := hadj j v w' (by omega) hv hw
      rw [abs_le] at hold ⊢
      omega

theorem model_inv_left (f : KeyFormat) (m : KeyMakerGameModel) (hinv : model_inv f m) :
    model_inv f (input_left m) := by
  obtain ⟨hf, hlen, hpn, hp1, hp2, hrange, hadj⟩ := hinv
  unfold input_left
  split
  · rename_i h
    refine ⟨hf, hlen, hpn, ?_, ?_, hrange, hadj⟩
    · show 1 ≤ m.pin_slc - 1; omega
    · left; show ((m.pin_slc - 1 : Nat) : Int) ≤ f.pin_num; omega
  · exact ⟨hf, hlen, hpn, hp1, hp2, hrange, hadj⟩

theorem model_inv_right (f : KeyFormat) (m : KeyMakerGameModel) (hinv : model_inv f m) :
    model_inv f (input_right m) := by
  obtain ⟨hf, hlen, hpn, hp1, hp2, hrange, hadj⟩ := hinv
  unfold input_right
  split
  · rename_i h
    rw [hf] at h
    have h3 : (m.pin_slc + 1) % 256 = m.pin_slc + 1 := by omega
    refine ⟨hf, hlen, hpn, ?_, ?_, hrange, hadj⟩
    · show 1 ≤ (m.pin_slc + 1) % 256; omega
    · left; show (((m.pin_slc + 1) % 256 : Nat) : Int) ≤ f.pin_num; omega
  · exact ⟨hf, hlen, hpn, hp1, hp2, hrange, hadj⟩

theorem model_inv_event (f : KeyFormat) (e : InputEvent) (m m1 : KeyMakerGameModel) (r : Bool)
    (hmin : 0 ≤ f.min_depth_ind) (hmax : f.max_depth_ind ≤ 255)
    (hinv : model_inv f m)
    (h : key_maker_view_game_input_callback e m = some (m1, r)) : model_inv f m1 := by
  rcases e with ⟨t, k⟩
  cases t <;> cases k <;>
    first
    | (have h2 : m1 = m := by
        simp only [key_maker_view_game_input_callback, Option.some.injEq, Prod.mk.injEq] at h
        exact h.1.symm
       rw [h2]; exact hinv)
    | (have h2 : m1 = input_left m := by
        simp only [key_maker_view_game_input_callback, Option.some.injEq, Prod.mk.injEq] at h
        exact h.1.symm
       rw [h2]; exact model_inv_left f m hinv)
    | (have h2 : m1 = input_right m := by
        simp only [key_maker_view_game_input_callback, Option.some.injEq, Prod.mk.injEq] at h
        exact h.1.symm
       rw [h2]; exact model_inv_right f m hinv)
    | exact model_inv_up f m m1 hmin hmax hinv (callback_up_some m m1 r h)
    | exact model_inv_down f m m1 hmin hmax hinv (callback_down_some m m1 r h)

theorem model_inv_run (f : KeyFormat) (hmin : 0 ≤ f.min_depth_ind)
    (hmax : f.max_depth_ind ≤ 255) :
    ∀ (events : List InputEvent) (m m1 : KeyMakerGameModel), model_inv f m →
      run_inputs events m = some m1 → model_inv f m1 := by
  intro events
  induction events with
  | nil =>
    intro m m1 hinv h
    have := Option.some.inj h
    subst this; exact hinv
  | cons e es ih =>
    intro m m1 hinv h
    unfold run_inputs at h
    rcases hc : key_maker_view_game_input_callback e m with _ | ⟨m2, r⟩
    · simp [hc] at h
    · simp only [hc] at h
      exact ih m2 m1 (model_inv_event f e m m2 r hmin hmax hinv hc) h

theorem callback_up_of (m m1 : KeyMakerGameModel) (h : input_up m = some m1) :
    key_maker_view_game_input_callback (short InputKey.Up) m = some (m1, false) := by
  rw [callback_up, h]; rfl

theorem callback_down_of (m m1 : KeyMakerGameModel) (h : input_down m = some m1) :
    key_maker_view_game_input_callback (short InputKey.Down) m = some (m1, false) := by
  rw [callback_down, h]; rfl

theorem event_total (f : KeyFormat) (e : InputEvent) (m : KeyMakerGameModel)
    (hpin : 1 ≤ f.pin_num) (hinv : model_inv f m) :
    ∃ m1 r, key_maker_view_game_input_callback e m = some (m1, r) := by
  obtain ⟨hf, hlen, hpn, hp1, hp2, hrange, hadj⟩ := hinv
  obtain ⟨j, hj⟩ : ∃ j, m.pin_slc = j + 1 := ⟨m.pin_slc - 1, by omega⟩
  have hle : ((j + 1 : Nat) : Int) ≤ m.format.pin_num := by
    rw [hf]; omega
  have hlen' : (m.depth.length : Int) = m.format.pin_num + 1 := by rw [hf]; exact hlen
  rcases e with ⟨t, k⟩
  cases t <;> cases k <;>
    first
    | exact ⟨_, _, rfl⟩
    | (obtain ⟨v, _, hup⟩ := input_up_total m j hlen' hj hle
       rcases hup with h | ⟨_, h⟩
       · exact ⟨m, false, callback_up_of m m h⟩
       · exact ⟨_, false, callback_up_of m _ h⟩)
    | (obtain ⟨v, _, hdn⟩ := input_down_total m j hlen' hj hle
       rcases hdn with h | ⟨_, h⟩
       · exact ⟨m, false, callback_down_of m m h⟩
       · exact ⟨_, false, callback_down_of m _ h⟩)

theorem model_inv_initial (junk : Nat → Nat) (all_formats : List KeyFormat) (f : KeyFormat)
    (m0 : KeyMakerGameModel) (h0 : all_formats[0]? = some f)
    (hmin : 0 ≤ f.min_depth_ind) (hmm : f.min_depth_ind ≤ f.max_depth_ind)
    (hmax : f.max_depth_ind ≤ 255) (hmacs : 0 ≤ f.macs)
    (h : key_maker_app_alloc junk all_formats = some m0) : model_inv f m0 := by
  rcases app_alloc_cases junk all_formats f h0 with ⟨hnone, _⟩ | ⟨m, hm, hf, hp, hlo, hhi, hlen, _, hcells⟩
  · rw [hnone] at h; cases h
  · rw [hm] at h
    have := Option.some.inj h
    subst this
    have hc : ((to_u8 f.min_depth_ind : Nat) : Int) = f.min_depth_ind :=
      to_u8_small _ hmin (by omega)
    refine ⟨hf, hlen, hhi, by omega, Or.inr hp, ?_, ?_⟩
    · intro i v hv
      rw [hcells i v hv, hc]
      omega
    · intro i v w _ hv hw
      rw [hcells i v hv, hcells (i + 1) w hw]
      simpa using hmacs

theorem bitting_ok_of_inv (f : KeyFormat) (m : KeyMakerGameModel) (hinv : model_inv f m) :
    bitting_ok m := by
  obtain ⟨hf, hlen, hpn, hp1, hp2, hrange, hadj⟩ := hinv
  rw [← hf] at hlen hrange hadj
  constructor
  · intro i hi
    obtain ⟨v, hv⟩ := cell_exists m.depth m.format.pin_num i hlen (by omega)
    exact ⟨v, hv, hrange i v hv⟩
  · intro i hi
    obtain ⟨v, hv⟩ := cell_exists m.depth m.format.pin_num i hlen (by omega)
    obtain ⟨w, hw⟩ := cell_exists m.depth m.format.pin_num (i + 1) hlen (by push_cast; omega)
    exact ⟨v, w, hv, hw, hadj i v w hi hv hw⟩

theorem run_total (f : KeyFormat) (hmin : 0 ≤ f.min_depth_ind) (hmax : f.max_depth_ind ≤ 255)
    (hpin : 1 ≤ f.pin_num) :
    ∀ (events : List InputEvent) (m : KeyMakerGameModel), model_inv f m →
      ∃ m1, run_inputs events m = some m1 := by
  intro events
  induction events with
  | nil => intro m _; exact ⟨m, rfl⟩
  | cons e es ih =>
    intro m hinv
    obtain ⟨m2, r, hc⟩ := event_total f e m hpin hinv
    obtain ⟨m1, h1⟩ := ih m2 (model_inv_event f e m m2 r hmin hmax hinv hc)
    refine ⟨m1, ?_⟩
    unfold run_inputs
    simp only [hc]
    exact h1

/-! ## Deepening one pin of the fresh model -/

theorem run_inputs_append (a b : List InputEvent) :
    ∀ m, run_inputs (a ++ b) m = (run_inputs a m).bind (run_inputs b) := by
  induction a with
  | nil => intro m; rfl
  | cons e es ih =>
    intro m
    simp only [List.cons_append, run_inputs]
    rcases key_maker_view_game_input_callback e m with _ | ⟨m1, r⟩
    · rfl
    · exact ih m1

theorem run_right (q : Nat) :
    ∀ m : KeyMakerGameModel, ((m.pin_slc + q : Nat) : Int) ≤ m.format.pin_num →
      m.format.pin_num ≤ 255 →
      run_inputs (List.replicate q (short InputKey.Right)) m
        = some { m with pin_slc := m.pin_slc + q } := by
  induction q with
  | zero => intro m _ _; rfl
  | succ q ih =>
    intro m h1 h2
    have hlt : (m.pin_slc : Int) < m.format.pin_num := by omega
    have hmod : (m.pin_slc + 1) % 256 = m.pin_slc + 1 := by omega
    have hstep : input_right m = { m with pin_slc := m.pin_slc + 1 } := by
      simp [input_right, hlt, hmod]
    have hcb : key_maker_view_game_input_callback (short InputKey.Right) m
        = some (input_right m, false) := rfl
    simp only [List.replicate_succ, run_inputs, hcb, hstep]
    rw [ih { m with pin_slc := m.pin_slc + 1 } (by simp only []; omega) h2]
    simp only [Nat.add_assoc, Nat.add_comm 1 q]

theorem deepened_step (f : KeyFormat) (p : Nat) (t : Int) (m : KeyMakerGameModel)
    (hmax : f.max_depth_ind ≤ 255)
    (hp1 : 1 ≤ p) (hp2 : (p : Int) ≤ f.pin_num)
    (ht1 : t ≤ min f.macs (f.max_depth_ind - f.min_depth_ind))
    (hs : deepened f p t m) :
    ∃ m1, input_down m = some m1 ∧
      deepened f p (min (t + 1) (min f.macs (f.max_depth_ind - f.min_depth_ind))) m1 := by
  obtain ⟨hf, hp, hlen, hcells⟩ := hs
  obtain ⟨j, hj⟩ : ∃ j, p = j + 1 := ⟨p - 1, by omega⟩
  subst hj
  obtain ⟨v, hv, hvv⟩ := hcells j (by omega)
  obtain ⟨w, hw, hww⟩ := hcells (j + 1) (by omega)
  simp only [if_true] at hvv
  have hne : ¬ (j + 1 + 1 = j + 1) := by omega
  simp only [hne, if_false] at hww
  have hcommit : ∀ m1, m1 = with_cell m j ((v : Int) + 1) →
      (v : Int) < f.max_depth_ind → t < f.macs →
      deepened f (j + 1) (min (t + 1) (min f.macs (f.max_depth_ind - f.min_depth_ind))) m1 := by
    intro m1 hm1 hlt1 hlt2
    subst hm1
    have hx : to_u8 ((v : Int) + 1) = v + 1 := to_u8_succ v (by omega)
    refine ⟨hf, hp, ?_, ?_⟩
    · simp only [with_cell, List.length_set]; exact hlen
    · intro i hi
      simp only [with_cell, hx, List.getElem?_set]
      by_cases hij : j = i
      · subst hij
        have hjl : j < m.depth.length := by omega
        refine ⟨v + 1, by simp [hjl], ?_⟩
        simp only [if_true]
        omega
      · obtain ⟨a, ha, haa⟩ := hcells i hi
        have hne2 : ¬ (i + 1 = j + 1) := by omega
        simp only [hne2, if_false] at haa ⊢
        exact ⟨a, by simp [hij, ha], haa⟩
  have hreject : t = min f.macs (f.max_depth_ind - f.min_depth_ind) →
      deepened f (j + 1) (min (t + 1) (min f.macs (f.max_depth_ind - f.min_depth_ind))) m := by
    intro hte
    have : min (t + 1) (min f.macs (f.max_depth_ind - f.min_depth_ind)) = t := by omega
    rw [this]
    exact ⟨hf, hp, hlen, hcells⟩
  rcases j with _ | i
  · rw [input_down_first m v w hp hv hw, hf]
    split
    · rename_i h
      exact ⟨_, rfl, hcommit _ rfl h.1 (by omega)⟩
    · rename_i h
      exact ⟨m, rfl, hreject (by omega)⟩
  · obtain ⟨u, hu, huu⟩ := hcells i (by omega)
    have hne3 : ¬ (i + 1 = i + 1 + 1) := by omega
    simp only [hne3, if_false] at huu
    by_cases hn : ((i + 2 : Nat) : Int) = m.format.pin_num
    · rw [input_down_last m i u v hp hn hu hv, hf]
      split
      · rename_i h
        exact ⟨_, rfl, hcommit _ rfl h.1 (by omega)⟩
      · rename_i h
        exact ⟨m, rfl, hreject (by omega)⟩
    · rw [input_down_mid m i u v w hp hn hu hv hw, hf]
      split
      · rename_i h
        exact ⟨_, rfl, hcommit _ rfl h.1 (by omega)⟩
      · rename_i h
        exact ⟨m, rfl, hreject (by omega)⟩

theorem deepened_run (f : KeyFormat) (p : Nat) (hmax : f.max_depth_ind ≤ 255)
    (hp1 : 1 ≤ p) (hp2 : (p : Int) ≤ f.pin_num) :
    ∀ (k : Nat) (t : Int) (m : KeyMakerGameModel), 0 ≤ t →
      t ≤ min f.macs (f.max_depth_ind - f.min_depth_ind) → deepened f p t m →
      ∃ m1, run_inputs (List.replicate k (short InputKey.Down)) m = some m1 ∧
        deepened f p (min (t + (k : Int)) (min f.macs (f.max_depth_ind - f.min_depth_ind)))
          m1 := by
  intro k
  induction k with
  | zero =>
    intro t m ht0 ht1 hs
    refine ⟨m, rfl, ?_⟩
    have : min (t + ((0 : Nat) : Int)) (min f.macs (f.max_depth_ind - f.min_depth_ind)) = t := by
      omega
    rw [this]; exact hs
  | succ k ih =>
    intro t m ht0 ht1 hs
    obtain ⟨m1, hm1, hs1⟩ := deepened_step f p t m hmax hp1 hp2 ht1 hs
    obtain ⟨m2, hm2, hs2⟩ := ih _ m1 (by omega) (by omega) hs1
    refine ⟨m2, ?_, ?_⟩
    · simp only [List.replicate_succ, run_inputs, callback_down_of m m1 hm1]
      exact hm2
    · have : min (t + ((k + 1 : Nat) : Int)) (min f.macs (f.max_depth_ind - f.min_depth_ind))
          = min (min (t + 1) (min f.macs (f.max_depth_ind - f.min_depth_ind)) + (k : Int))
              (min f.macs (f.max_depth_ind - f.min_depth_ind)) := by
        omega
      rw [this]; exact hs2

/-! ## Format selection -/

theorem total_pin_change_result (junk : Nat → Nat) (all_formats : List KeyFormat) (k : Nat)
    (m m1 : KeyMakerGameModel) (h : key_maker_total_pin_change junk all_formats k m = some m1) :
    m1.pin_slc = m.pin_slc ∧ all_formats[k]? = some m1.format ∧
      m1.total_pin = to_u8 m1.format.pin_num ∧
      m1.depth = (List.range (m1.total_pin + 1)).map junk := by
  unfold key_maker_total_pin_change at h
  rcases hf : all_formats[k]? with _ | f
  · simp [hf] at h
  · simp only [hf, malloc] at h
    have hnn : (0 : Int) ≤ ((to_u8 f.pin_num : Nat) : Int) + 1 := by omega
    simp only [hnn, if_true] at h
    have := Option.some.inj h
    subst this
    refine ⟨rfl, rfl, rfl, ?_⟩
    show List.map junk (List.range (((to_u8 f.pin_num : Nat) : Int) + 1).toNat) = _
    have : (((to_u8 f.pin_num : Nat) : Int) + 1).toNat = to_u8 f.pin_num + 1 := by omega
    rw [this]

/-! ## The pixel scale on the sample formats -/

theorem exact_half_width (a b c d e : Int) :
    exact_scale.half_width (sample_format a b c d e) = 4 := by
  simp only [exact_scale, sample_format, c_round, inches_per_pixel]
  norm_num

theorem exact_pin_step (a b c d e : Int) :
    exact_scale.pin_step (sample_format a b c d e) = 15 := by
  simp only [exact_scale, sample_format, c_round, inches_per_pixel]
  norm_num

theorem exact_top_contour (a b c d e : Int) :
    exact_scale.top_contour (sample_format a b c d e) = 29 := by
  simp only [exact_scale, sample_format, c_round, inches_per_pixel]
  norm_num

theorem exact_pin_center_one (a b c d e : Int) :
    exact_scale.pin_center (sample_format a b c d e) 1 = 25 := by
  simp only [exact_scale, sample_format, c_round, inches_per_pixel]
  norm_num

theorem exact_depth_pixel_zero (a b c d e : Int) :
    exact_scale.depth_pixel (sample_format a b c d e) 0 = 0 := by
  simp only [exact_scale, sample_format, c_round, inches_per_pixel]
  norm_num

theorem exact_depth_pixel_six (a b c d e : Int) :
    exact_scale.depth_pixel (sample_format a b c d e) 6 = 14 := by
  simp only [exact_scale, sample_format, c_round, inches_per_pixel]
  norm_num

theorem exact_round_product_six : exact_scale.round_product 6 6 15 = 15 := by
  simp only [exact_scale, c_round]
  norm_num

theorem narrow_half_width : exact_scale.half_width narrow_format = 2 := by
  simp only [exact_scale, narrow_format, sample_format, c_round, inches_per_pixel]
  norm_num

theorem narrow_top_contour : exact_scale.top_contour narrow_format = 29 := by
  simp only [exact_scale, narrow_format, sample_format, c_round, inches_per_pixel]
  norm_num

theorem narrow_pin_center_one : exact_scale.pin_center narrow_format 1 = 25 := by
  simp only [exact_scale, narrow_format, sample_format, c_round, inches_per_pixel]
  norm_num

theorem narrow_depth_pixel_zero : exact_scale.depth_pixel narrow_format 0 = 0 := by
  simp only [exact_scale, narrow_format, sample_format, c_round, inches_per_pixel]
  norm_num

theorem narrow_fields :
    narrow_format.pin_num = 5 ∧ narrow_format.min_depth_ind = 0 ∧
      narrow_format.clearance = 8 := by
  decide

theorem sample_fields (a b c d e : Int) :
    (sample_format a b c d e).pin_num = a ∧ (sample_format a b c d e).min_depth_ind = b ∧
      (sample_format a b c d e).clearance = e :=
  ⟨rfl, rfl, rfl⟩

theorem digits_zero : Nat.toDigits 10 0 = ['0'] := by decide

/-- The statics a call of the draw callback leaves: the first call stores the
half width and step of the format it is given, every later call keeps what is
stored. -/
theorem draw_statics (px : PixelScale) (st : DrawStatics) (m : KeyMakerGameModel)
    (r : DrawStatics × List Primitive)
    (h : key_maker_view_game_draw_callback px st m = some r) :
    r.1 = if st.initialized then st
      else { initialized := true, pin_half_width_pixel := px.half_width m.format,
             pin_step_pixel := px.pin_step m.format } := by
  unfold key_maker_view_game_draw_callback at h
  simp only [] at h
  split at h
  · cases h
  · split at h
    · cases h
    · have := Option.some.inj h
      rw [← this]

/-! ## Walls of an uncut pin -/

theorem draw_pins_get (px : PixelScale) (hw step : Int) (m : KeyMakerGameModel) :
    ∀ (count start : Nat) (post pre : Int) (ds : List PinDrawing),
      draw_pins px hw step m count start post pre = some ds →
      ∀ (k : Nat) (d : PinDrawing), ds[k]? = some d →
        ∃ post1 pre1, draw_pin px hw step m (start + k) post1 pre1 = some d := by
  intro count
  induction count with
  | zero =>
    intro start post pre ds h k d hd
    have := Option.some.inj h
    subst this
    simp at hd
  | succ c ih =>
    intro start post pre ds h k d hd
    unfold draw_pins at h
    rcases h1 : draw_pin px hw step m start post pre with _ | d1
    · simp [h1] at h
    · simp only [h1] at h
      rcases h2 : draw_pins px hw step m c (start + 1) d1.post_extra_x_pixel
          d1.pre_extra_x_pixel with _ | ds1
      · simp [h2] at h
      · simp only [h2] at h
        have := Option.some.inj h
        subst this
        rcases k with _ | k
        · simp only [List.getElem?_cons_zero] at hd
          have := Option.some.inj hd
          subst this
          exact ⟨post, pre, h1⟩
        · simp only [List.getElem?_cons_succ] at hd
          obtain ⟨post1, pre1, hp⟩ := ih (start + 1) _ _ ds1 h2 k d hd
          refine ⟨post1, pre1, ?_⟩
          have : start + (k + 1) = start + 1 + k := by omega
          rw [this]; exact hp

/-- The fields of what one iteration draws, in terms of the three cells it
reads: `cur` at `current_pin - 1`, `nxt` at `current_pin`, and the normalized
depth `last_depth` of the pin before (0 for pin 1). -/
theorem draw_pin_fields (px : PixelScale) (hw step : Int) (m : KeyMakerGameModel)
    (current_pin : Nat) (post pre : Int) (d : PinDrawing) (cur nxt : Nat)
    (hcur : rd m.depth ((current_pin : Int) - 1) = some cur)
    (hnxt : rd m.depth (current_pin : Int) = some nxt)
    (hd : draw_pin px hw step m current_pin post pre = some d) :
    ∃ last_depth : Int,
      (if current_pin = 1 then some 0
        else (rd m.depth ((current_pin : Int) - 2)).map
          (fun v => (v : Int) - m.format.min_depth_ind)) = some last_depth ∧
      d.post_extra_x_pixel =
        (if (cur : Int) - m.format.min_depth_ind + next_depth_of m current_pin nxt
              > m.format.clearance ∧
            (cur : Int) - m.format.min_depth_ind ≠ m.format.min_depth_ind
          then max (px.round_product ((cur : Int) - m.format.min_depth_ind)
            ((cur : Int) - m.format.min_depth_ind + next_depth_of m current_pin nxt) step) hw
          else post) ∧
      d.right_wall =
        (if (cur : Int) - m.format.min_depth_ind + next_depth_of m current_pin nxt
              > m.format.clearance ∧
            (cur : Int) - m.format.min_depth_ind ≠ m.format.min_depth_ind
          then Primitive.line (px.pin_center m.format current_pin + hw)
            (px.top_contour m.format
              + px.depth_pixel m.format ((cur : Int) - m.format.min_depth_ind))
            (px.pin_center m.format current_pin + d.post_extra_x_pixel)
            (px.top_contour m.format
              + px.depth_pixel m.format ((cur : Int) - m.format.min_depth_ind)
              - (d.post_extra_x_pixel - hw))
          else Primitive.line (px.pin_center m.format current_pin + hw)
            (px.top_contour m.format
              + px.depth_pixel m.format ((cur : Int) - m.format.min_depth_ind))
            (px.pin_center m.format current_pin + hw
              + px.depth_pixel m.format ((cur : Int) - m.format.min_depth_ind))
            (px.top_contour m.format)) ∧
      d.pre_extra_x_pixel =
        (if last_depth + ((cur : Int) - m.format.min_depth_ind) > m.format.clearance ∧
            (cur : Int) - m.format.min_depth_ind ≠ m.format.min_depth_ind
          then (if current_pin ≠ 1 then max (step - post) hw
            else max (px.depth_pixel m.format ((cur : Int) - m.format.min_depth_ind) + hw) 0)
          else (if current_pin = 1
            then max (px.depth_pixel m.format ((cur : Int) - m.format.min_depth_ind) + hw) 0
            else pre)) ∧
      d.left_wall =
        (if last_depth + ((cur : Int) - m.format.min_depth_ind) > m.format.clearance ∧
            (cur : Int) - m.format.min_depth_ind ≠ m.format.min_depth_ind
          then Primitive.line (px.pin_center m.format current_pin - d.pre_extra_x_pixel)
            (px.top_contour m.format
              + px.depth_pixel m.format ((cur : Int) - m.format.min_depth_ind)
              - (d.pre_extra_x_pixel - hw))
            (px.pin_center m.format current_pin - hw)
            (px.top_contour m.format
              + px.depth_pixel m.format ((cur : Int) - m.format.min_depth_ind))
          else Primitive.line
            (px.pin_center m.format current_pin - hw
              - px.depth_pixel m.format ((cur : Int) - m.format.min_depth_ind))
            (px.top_contour m.format) (px.pin_center m.format current_pin - hw)
            (px.top_contour m.format
              + px.depth_pixel m.format ((cur : Int) - m.format.min_depth_ind))) ∧
      d.left_edge =
        (if current_pin = 1 then
          some (Primitive.line 0 (px.top_contour m.format)
            (px.pin_center m.format current_pin - hw
              - px.depth_pixel m.format ((cur : Int) - m.format.min_depth_ind))
            (px.top_contour m.format))
          else none) := by
  unfold draw_pin at hd
  simp only [hcur, hnxt] at hd
  split at hd
  · cases hd
  · rename_i last_depth hlast
    have := Option.some.inj hd
    subst this
    refine ⟨last_depth, hlast, ?_, ?_, ?_, ?_, ?_⟩
    · simp only [next_depth_of, Bool.and_eq_true, decide_eq_true_eq]
    · simp only [next_depth_of, Bool.and_eq_true, decide_eq_true_eq]
    · by_cases hcp : current_pin = 1 <;>
        simp only [hcp, Bool.and_eq_true, decide_eq_true_eq, ne_eq, not_true_eq_false,
          not_false_eq_true, if_true, if_false]
    · simp only [Bool.and_eq_true, decide_eq_true_eq]
    · rfl

theorem rd_in_block (d : List Nat) (i : Int) (h0 : 0 ≤ i) (h1 : i < (d.length : Int)) :
    ∃ v, rd d i = some v ∧ d[i.toNat]? = some v := by
  have h : i.toNat < d.length := by omega
  refine ⟨d[i.toNat], ?_, List.getElem?_eq_getElem h⟩
  simp only [rd, h0, if_true]
  exact List.getElem?_eq_getElem h

/-- One iteration returns when the cells it reads are inside the block. -/
theorem draw_pin_total (px : PixelScale) (hw step : Int) (m : KeyMakerGameModel)
    (current_pin : Nat) (post pre : Int) (h1 : 1 ≤ current_pin)
    (hlen : current_pin < m.depth.length) :
    ∃ d, draw_pin px hw step m current_pin post pre = some d := by
  obtain ⟨cur, hcur, _⟩ := rd_in_block m.depth ((current_pin : Int) - 1) (by omega) (by omega)
  obtain ⟨nxt, hnxt, _⟩ := rd_in_block m.depth (current_pin : Int) (by omega) (by omega)
  unfold draw_pin
  simp only [hcur, hnxt]
  by_cases hcp : current_pin = 1
  · simp only [hcp, if_true]
    exact ⟨_, rfl⟩
  · obtain ⟨lst, hlst, _⟩ :=
      rd_in_block m.depth ((current_pin : Int) - 2) (by omega) (by omega)
    simp only [hcp, if_false, hlst, Option.map_some']
    exact ⟨_, rfl⟩

/-- The pin loop returns one drawing per pin when the block holds a cell for
every pin and one more. -/
theorem draw_pins_total (px : PixelScale) (hw step : Int) (m : KeyMakerGameModel) :
    ∀ (count start : Nat) (post pre : Int), 1 ≤ start → start + count ≤ m.depth.length →
      ∃ ds, draw_pins px hw step m count start post pre = some ds ∧ ds.length = count := by
  intro count
  induction count with
  | zero => intro start post pre _ _; exact ⟨[], rfl, rfl⟩
  | succ c ih =>
    intro start post pre h1 hlen
    obtain ⟨d, hd⟩ := draw_pin_total px hw step m start post pre h1 (by omega)
    obtain ⟨ds, hds, hl⟩ :=
      ih (start + 1) d.post_extra_x_pixel d.pre_extra_x_pixel (by omega) (by omega)
    refine ⟨d :: ds, ?_, by simp [hl]⟩
    unfold draw_pins
    simp only [hd, hds]

/-- Each drawing of the loop is made with the accumulators the drawing before it
left. -/
theorem draw_pins_next (px : PixelScale) (hw step : Int) (m : KeyMakerGameModel) :
    ∀ (count start : Nat) (post pre : Int) (ds : List PinDrawing),
      draw_pins px hw step m count start post pre = some ds →
      ∀ (k : Nat) (d d1 : PinDrawing), ds[k]? = some d → ds[k + 1]? = some d1 →
        draw_pin px hw step m (start + k + 1) d.post_extra_x_pixel d.pre_extra_x_pixel
          = some d1 := by
  intro count
  induction count with
  | zero =>
    intro start post pre ds h k d d1 hd _
    have := Option.some.inj h
    subst this
    simp at hd
  | succ c ih =>
    intro start post pre ds h k d d1 hd hd1
    unfold draw_pins at h
    rcases h1 : draw_pin px hw step m start post pre with _ | d0
    · simp [h1] at h
    · simp only [h1] at h
      rcases h2 : draw_pins px hw step m c (start + 1) d0.post_extra_x_pixel
          d0.pre_extra_x_pixel with _ | ds1
      · simp [h2] at h
      · simp only [h2] at h
        have := Option.some.inj h
        subst this
        rcases k with _ | k
        · simp only [List.getElem?_cons_zero] at hd
          have := Option.some.inj hd
          subst this
          simp only [zero_add, List.getElem?_cons_succ] at hd1
          rcases c with _ | c
          · have := Option.some.inj h2
            subst this
            simp at hd1
          · unfold draw_pins at h2
            rcases h3 : draw_pin px hw step m (start + 1) d0.post_extra_x_pixel
                d0.pre_extra_x_pixel with _ | d2
            · simp [h3] at h2
            · simp only [h3] at h2
              rcases h4 : draw_pins px hw step m c (start + 1 + 1) d2.post_extra_x_pixel
                  d2.pre_extra_x_pixel with _ | ds2
              · simp [h4] at h2
              · simp only [h4] at h2
                have := Option.some.inj h2
                subst this
                simp only [List.getElem?_cons_zero] at hd1
                have := Option.some.inj hd1
                subst this
                simp
        · simp only [List.getElem?_cons_succ] at hd hd1
          have := ih (start + 1) _ _ ds1 h2 k d d1 hd hd1
          have e : start + (k + 1) + 1 = start + 1 + k + 1 := by omega
          rw [e]; exact this

/-- The first drawing of the loop is made with the initial accumulators. -/
theorem draw_pins_first (px : PixelScale) (hw step : Int) (m : KeyMakerGameModel)
    (count start : Nat) (post pre : Int) (ds : List PinDrawing) (d : PinDrawing)
    (h : draw_pins px hw step m count start post pre = some ds) (hd : ds[0]? = some d) :
    draw_pin px hw step m start post pre = some d := by
  rcases count with _ | c
  · have := Option.some.inj h
    subst this
    simp at hd
  · unfold draw_pins at h
    rcases h1 : draw_pin px hw step m start post pre with _ | d0
    · simp [h1] at h
    · simp only [h1] at h
      rcases h2 : draw_pins px hw step m c (start + 1) d0.post_extra_x_pixel
          d0.pre_extra_x_pixel with _ | ds1
      · simp [h2] at h
      · simp only [h2] at h
        have := Option.some.inj h
        subst this
        simp only [List.getElem?_cons_zero] at hd
        rw [Option.some.inj hd]

theorem exact_depth_pixel_three (a b c d e : Int) :
    exact_scale.depth_pixel (sample_format a b c d e) 3 = 7 := by
  simp only [exact_scale, sample_format, c_round, inches_per_pixel]
  norm_num

theorem exact_round_product_three_four : exact_scale.round_product 3 4 15 = 11 := by
  simp only [exact_scale, c_round]
  norm_num

theorem exact_round_product_three_six : exact_scale.round_product 3 6 15 = 8 := by
  simp only [exact_scale, c_round]
  norm_num

theorem digits_one : Nat.toDigits 10 1 = ['1'] := by decide

theorem digits_three : Nat.toDigits 10 3 = ['3'] := by decide

/-! ## The depth readout -/

theorem digits_single (v : Nat) (h : v ≤ 9) : (Nat.toDigits 10 v).length = 1 := by
  interval_cases v <;> decide

/-- With one-digit depths the loop that fills `depth_str` never runs out of room:
it appends the digit of every cell from `i` on. -/
theorem depth_str_loop_digits (n : Nat) (depth : List Nat)
    (hcells : ∀ k, k < n → ∃ v, depth[k]? = some v ∧ v ≤ 9) :
    ∀ (count i : Nat) (acc : List Char), i + count = n → acc.length = i →
      depth_str_loop (n + 1) depth count i acc
        = some (acc ++ ((depth.drop i).take count).flatMap (Nat.toDigits 10)) := by
  intro count
  induction count with
  | zero =>
    intro i acc _ _
    simp [depth_str_loop]
  | succ c ih =>
    intro i acc hic hacc
    obtain ⟨v, hv, hv9⟩ := hcells i (by omega)
    have hi : i < depth.length := by
      rcases List.getElem?_eq_some.mp hv with ⟨h, _⟩
      exact h
    have hvi : depth[i] = v := by
      rcases List.getElem?_eq_some.mp hv with ⟨_, h⟩
      exact h
    have hlen := digits_single v hv9
    unfold depth_str_loop
    simp only [hv]
    have hroom : ¬ ((Nat.toDigits 10 v).length ≥ n + 1 - acc.length) := by omega
    simp only [hroom, if_false]
    rw [ih (i + 1) (acc ++ Nat.toDigits 10 v) (by omega) (by simp [hacc, hlen])]
    rw [List.drop_eq_getElem_cons hi, hvi]
    simp [List.take_succ_cons, List.flatMap_cons]

theorem depth_readout_digits (m : KeyMakerGameModel)
    (hcells : ∀ k, k < m.total_pin → ∃ v, m.depth[k]? = some v ∧ v ≤ 9) :
    depth_readout m
      = some ("depth: " ++ String.mk ((m.depth.take m.total_pin).flatMap (Nat.toDigits 10))) := by
  unfold depth_readout
  rw [depth_str_loop_digits m.total_pin m.depth hcells m.total_pin 0 [] (by omega) rfl]
  simp

/-! ## The primitives of a draw call -/

/-- The primitives of a draw call: the drawings of the pin loop, made with the
stored half width and the step of the format, then the two contour lines, the
cursor mark and the depth readout. -/
theorem draw_callback_prims (px : PixelScale) (st : DrawStatics) (m : KeyMakerGameModel)
    (r : DrawStatics × List Primitive)
    (h : key_maker_view_game_draw_callback px st m = some r) :
    ∃ ds xstr,
      draw_pins px r.1.pin_half_width_pixel (px.pin_step m.format) m m.total_pin 1 0 0
        = some ds ∧
      depth_readout m = some xstr ∧
      r.2 = (ds.map PinDrawing.prims).flatten ++
        [Primitive.line 0 62 (px.level_contour m.format) 62,
         Primitive.line (px.level_contour m.format) 62
           (px.level_contour m.format + px.pin_step m.format) (62 - px.pin_step m.format),
         Primitive.str (px.pin_center m.format m.pin_slc - 2) 18 "*",
         Primitive.str 0 10 xstr] := by
  have hst := draw_statics px st m r h
  unfold key_maker_view_game_draw_callback at h
  simp only [] at h
  split at h
  · cases h
  · rename_i ds hds
    split at h
    · cases h
    · rename_i xstr hx
      have := Option.some.inj h
      subst this
      exact ⟨ds, xstr, hds, hx, rfl⟩

/-- A draw call returns when the block holds a cell for every pin and one more
and the readout loop returns. -/
theorem draw_callback_total (px : PixelScale) (st : DrawStatics) (m : KeyMakerGameModel)
    (xstr : String) (hlen : m.total_pin + 1 ≤ m.depth.length)
    (hx : depth_readout m = some xstr) :
    ∃ r, key_maker_view_game_draw_callback px st m = some r ∧
      r.2.getLast? = some (Primitive.str 0 10 xstr) := by
  unfold key_maker_view_game_draw_callback
  simp only []
  obtain ⟨ds, hds, _⟩ := draw_pins_total px
    (if st.initialized then st
      else { initialized := true, pin_half_width_pixel := px.half_width m.format,
             pin_step_pixel := px.pin_step m.format }).pin_half_width_pixel
    (px.pin_step m.format) m m.total_pin 1 0 0 (le_refl 1) (by omega)
  simp only [hds, hx]
  refine ⟨_, rfl, ?_⟩
  simp [List.getLast?_append]

/-! ## More values of the pixel scale -/

theorem exact_pin_center_two (a b c d e : Int) :
    exact_scale.pin_center (sample_format a b c d e) 2 = 41 := by
  simp only [exact_scale, sample_format, c_round, inches_per_pixel]
  norm_num

theorem exact_pin_center_three (a b c d e : Int) :
    exact_scale.pin_center (sample_format a b c d e) 3 = 56 := by
  simp only [exact_scale, sample_format, c_round, inches_per_pixel]
  norm_num

theorem exact_pin_center_five (a b c d e : Int) :
    exact_scale.pin_center (sample_format a b c d e) 5 = 87 := by
  simp only [exact_scale, sample_format, c_round, inches_per_pixel]
  norm_num

theorem exact_depth_pixel_four (a b c d e : Int) :
    exact_scale.depth_pixel (sample_format a b c d e) 4 = 9 := by
  simp only [exact_scale, sample_format, c_round, inches_per_pixel]
  norm_num

theorem exact_round_product_four_five : exact_scale.round_product 4 5 15 = 12 := by
  simp only [exact_scale, c_round]
  norm_num

theorem exact_round_product_four_four : exact_scale.round_product 4 4 15 = 15 := by
  simp only [exact_scale, c_round]
  norm_num

/-- The left wall of a pin after the first, when drawn as intersecting, starts
`max(pin_step - e, hw)` pixels left of the centre, where `e` is the accumulator as
the pin before left it: the `extra_x` of that pin if its right wall was
intersecting, otherwise what it received. -/
theorem left_wall_takes_accumulator (px : PixelScale) (hw step : Int) (m : KeyMakerGameModel)
    (ds : List PinDrawing) (k : Nat) (d d1 : PinDrawing) (lst cur nxt : Nat)
    (hds : draw_pins px hw step m m.total_pin 1 0 0 = some ds)
    (hd : ds[k]? = some d) (hd1 : ds[k + 1]? = some d1)
    (hlst : m.depth[k]? = some lst) (hcur : m.depth[k + 1]? = some cur)
    (hnxt : m.depth[k + 2]? = some nxt)
    (htest : (lst : Int) - m.format.min_depth_ind + ((cur : Int) - m.format.min_depth_ind)
        > m.format.clearance ∧
      (cur : Int) - m.format.min_depth_ind ≠ m.format.min_depth_ind) :
    d1.pre_extra_x_pixel = max (step - d.post_extra_x_pixel) hw ∧
    d1.left_wall = Primitive.line
      (px.pin_center m.format ((k + 2 : Nat) : Int) - max (step - d.post_extra_x_pixel) hw)
      (px.top_contour m.format
        + px.depth_pixel m.format ((cur : Int) - m.format.min_depth_ind)
        - (max (step - d.post_extra_x_pixel) hw - hw))
      (px.pin_center m.format ((k + 2 : Nat) : Int) - hw)
      (px.top_contour m.format
        + px.depth_pixel m.format ((cur : Int) - m.format.min_depth_ind)) := by
  have hp := draw_pins_next px hw step m m.total_pin 1 0 0 ds hds k d d1 hd hd1
  have e1 : 1 + k + 1 = k + 2 := by omega
  rw [e1] at hp
  have hr0 : rd m.depth (((k + 2 : Nat) : Int) - 1) = some cur := by
    rw [← hcur]; exact rd_pred m.depth (k + 1)
  have hr1 : rd m.depth ((k + 2 : Nat) : Int) = some nxt := by
    rw [← hnxt]; exact rd_cast m.depth (k + 2)
  have hr2 : rd m.depth (((k + 2 : Nat) : Int) - 2) = some lst := by
    rw [← hlst]; exact rd_pred_pred m.depth k
  obtain ⟨last_depth, hlast, _, _, hpre, hleft, _⟩ :=
    draw_pin_fields px hw step m (k + 2) _ _ d1 cur nxt hr0 hr1 hp
  have hne : ¬ (k + 2 = 1) := by omega
  have hr2c : rd m.depth (k : Int) = some lst := by
    rw [← hlst]; exact rd_cast m.depth k
  simp [hne, hr2c] at hlast
  subst hlast
  have hne2 : k + 2 ≠ 1 := hne
  rw [if_pos htest, if_pos hne2] at hpre
  rw [if_pos htest, hpre] at hleft
  exact ⟨hpre, hleft⟩

/-! ## Rounding a share of the step -/

theorem c_round_nonneg_le (q : ℚ) (s : Int) (h0 : 0 ≤ q) (h1 : q ≤ (s : ℚ)) :
    0 ≤ c_round q ∧ c_round q ≤ s := by
  unfold c_round
  simp only [h0, if_true]
  constructor
  · apply Int.floor_nonneg.mpr
    linarith
  · rw [Int.floor_le_iff]
    linarith

theorem c_round_nonpos_ge (q : ℚ) (s : Int) (h0 : q ≤ 0) (h1 : (s : ℚ) ≤ q) :
    s ≤ c_round q ∧ c_round q ≤ 0 := by
  by_cases hq : q = 0
  · subst hq
    have hs : s ≤ 0 := by exact_mod_cast h1
    have hz : c_round 0 = 0 := by
      unfold c_round
      norm_num
    rw [hz]
    exact ⟨hs, le_refl 0⟩
  · have hneg : ¬ (0 ≤ q) := by
      intro h
      exact hq (le_antisymm h0 h)
    unfold c_round
    simp only [hneg, if_false]
    have hf0 : 0 ≤ ⌊-q + 1 / 2⌋ := by
      apply Int.floor_nonneg.mpr
      linarith
    have hf1 : ⌊-q + 1 / 2⌋ ≤ -s := by
      rw [Int.floor_le_iff]
      push_cast
      linarith
    constructor <;> omega

/-- The share `n / den` of a step `s`, rounded exactly, lies between 0 and `s`. -/
theorem c_round_share (n den s : Int) (hn : 0 ≤ n) (hd : 0 < den) (hnd : n ≤ den) :
    0 ≤ (n : ℚ) / (den : ℚ) ∧ (n : ℚ) / (den : ℚ) ≤ 1 ∧
    (0 ≤ s → 0 ≤ c_round (((n : ℚ) / (den : ℚ)) * (s : ℚ)) ∧
      c_round (((n : ℚ) / (den : ℚ)) * (s : ℚ)) ≤ s) ∧
    (s ≤ 0 → s ≤ c_round (((n : ℚ) / (den : ℚ)) * (s : ℚ)) ∧
      c_round (((n : ℚ) / (den : ℚ)) * (s : ℚ)) ≤ 0) := by
  have hdq : (0 : ℚ) < (den : ℚ) := by exact_mod_cast hd
  have hnq : (0 : ℚ) ≤ (n : ℚ) := by exact_mod_cast hn
  have hndq : (n : ℚ) ≤ (den : ℚ) := by exact_mod_cast hnd
  have hr0 : 0 ≤ (n : ℚ) / (den : ℚ) := div_nonneg hnq (le_of_lt hdq)
  have hr1 : (n : ℚ) / (den : ℚ) ≤ 1 := by
    rw [div_le_one hdq]; exact hndq
  refine ⟨hr0, hr1, ?_, ?_⟩
  · intro hs
    have hsq : (0 : ℚ) ≤ (s : ℚ) := by exact_mod_cast hs
    apply c_round_nonneg_le
    · exact mul_nonneg hr0 hsq
    · exact mul_le_of_le_one_left hsq hr1
  · intro hs
    have hsq : (s : ℚ) ≤ 0 := by exact_mod_cast hs
    apply c_round_nonpos_ge
    · exact mul_nonpos_of_nonneg_of_nonpos hr0 hsq
    · have := mul_le_mul_of_nonpos_right hr1 hsq
      linarith

/-! ## Binary64 rounding -/

theorem round_half_even_ge_floor (q : ℚ) : ⌊q⌋ ≤ round_half_even q := by
  unfold round_half_even
  split_ifs <;> omega

theorem round_half_even_nonneg (q : ℚ) (h : 0 ≤ q) : 0 ≤ round_half_even q :=
  le_trans (Int.floor_nonneg.mpr h) (round_half_even_ge_floor q)

/-- Rounding does not pass an integer. -/
theorem round_half_even_le (q : ℚ) (N : Int) (h : q ≤ (N : ℚ)) : round_half_even q ≤ N := by
  have hf : ⌊q⌋ ≤ N := by
    have h1 : ((⌊q⌋ : Int) : ℚ) ≤ (N : ℚ) := le_trans (Int.floor_le q) h
    exact_mod_cast h1
  by_cases hlt : ⌊q⌋ < N
  · unfold round_half_even
    split_ifs <;> omega
  · have heq : ⌊q⌋ = N := by omega
    unfold round_half_even
    rw [if_pos (by rw [heq]; linarith)]
    omega

theorem round_half_even_eq (q : ℚ) (N : Int) (h1 : (N : ℚ) - 1 / 2 < q)
    (h2 : q < (N : ℚ) + 1 / 2) : round_half_even q = N := by
  by_cases hq : (N : ℚ) ≤ q
  · have hf : ⌊q⌋ = N := by
      rw [Int.floor_eq_iff]
      exact ⟨hq, by linarith⟩
    unfold round_half_even
    rw [hf, if_pos (by linarith)]
  · have hf : ⌊q⌋ = N - 1 := by
      rw [Int.floor_eq_iff]
      push_cast
      constructor <;> linarith
    unfold round_half_even
    rw [hf, if_neg (by push_cast; linarith), if_pos (by push_cast; linarith)]
    omega

theorem binary64_nonneg (q : ℚ) (h : 0 ≤ q) : 0 ≤ binary64 q := by
  unfold binary64
  apply mul_nonneg
  · have := round_half_even_nonneg (q / (2 : ℚ) ^ (binary64_exponent q - 52))
      (div_nonneg h (by positivity))
    exact_mod_cast this
  · positivity

theorem binary64_zero : binary64 0 = 0 := by
  unfold binary64
  have : round_half_even 0 = 0 := round_half_even_eq 0 0 (by norm_num) (by norm_num)
  simp [this]

/-- Rounding to binary64 does not pass an integer below `2^53`: such an integer
is a multiple of the quantum of every smaller number. -/
theorem binary64_le_int (q : ℚ) (N : Int) (h0 : 0 ≤ q) (h : q ≤ (N : ℚ))
    (hN : N < 2 ^ 53) : binary64 q ≤ (N : ℚ) := by
  rcases h0.eq_or_lt with h0 | hpos
  · subst h0
    rw [binary64_zero]
    exact h
  · have hL : Int.log 2 |q| < 53 := by
      rw [abs_of_pos hpos]
      apply (Int.lt_zpow_iff_log_lt (by norm_num) hpos).mp
      have hN1 : (N : ℚ) < 2 ^ 53 := by exact_mod_cast hN
      have : ((2 : ℕ) : ℚ) ^ (53 : Int) = 2 ^ 53 := by norm_num
      rw [this]
      linarith
    have he : binary64_exponent q - 52 ≤ 0 := by
      unfold binary64_exponent
      omega
    obtain ⟨j, hj⟩ : ∃ j : ℕ, binary64_exponent q - 52 = -(j : Int) :=
      ⟨(-(binary64_exponent q - 52)).toNat, by omega⟩
    have h2 : (2 : ℚ) ^ (binary64_exponent q - 52) = ((2 : ℚ) ^ j)⁻¹ := by
      rw [hj, zpow_neg, zpow_natCast]
    unfold binary64
    rw [h2, div_inv_eq_mul]
    have hp : (0 : ℚ) < (2 : ℚ) ^ j := by positivity
    have hr : round_half_even (q * (2 : ℚ) ^ j) ≤ N * 2 ^ j := by
      apply round_half_even_le
      push_cast
      exact mul_le_mul_of_nonneg_right h hp.le
    have hr1 : ((round_half_even (q * (2 : ℚ) ^ j) : Int) : ℚ) ≤ (N : ℚ) * (2 : ℚ) ^ j := by
      exact_mod_cast hr
    calc ((round_half_even (q * (2 : ℚ) ^ j) : Int) : ℚ) * ((2 : ℚ) ^ j)⁻¹
        ≤ ((N : ℚ) * (2 : ℚ) ^ j) * ((2 : ℚ) ^ j)⁻¹ :=
          mul_le_mul_of_nonneg_right hr1 (inv_nonneg.mpr hp.le)
      _ = (N : ℚ) := by field_simp

/-- The value of `binary64` at a number whose binade and nearest multiple of the
quantum are known. -/
theorem binary64_eq (q : ℚ) (e N : Int) (hq : 0 < q) (h1 : (2 : ℚ) ^ e ≤ q)
    (h2 : q < (2 : ℚ) ^ (e + 1)) (he : -1022 ≤ e)
    (h3 : (N : ℚ) - 1 / 2 < q / (2 : ℚ) ^ (e - 52))
    (h4 : q / (2 : ℚ) ^ (e - 52) < (N : ℚ) + 1 / 2) :
    binary64 q = (N : ℚ) * (2 : ℚ) ^ (e - 52) := by
  have hlog : Int.log 2 |q| = e := by
    rw [abs_of_pos hq]
    have ha : e ≤ Int.log 2 q := by
      apply (Int.zpow_le_iff_le_log (by norm_num) hq).mp
      simpa using h1
    have hb : Int.log 2 q < e + 1 := by
      apply (Int.lt_zpow_iff_log_lt (by norm_num) hq).mp
      simpa using h2
    omega
  have hexp : binary64_exponent q = e := by
    unfold binary64_exponent
    rw [hlog]
    omega
  unfold binary64
  rw [hexp, round_half_even_eq _ N h3 h4]

theorem c_round_nonneg (q : ℚ) (h : 0 ≤ q) : 0 ≤ c_round q :=
  (c_round_nonneg_le q (⌈q⌉) h (Int.le_ceil q)).1

/-- The pin step of a format whose pin increment is not negative is not
negative. -/
theorem binary64_pin_step_nonneg (f : KeyFormat) (h : 0 ≤ f.pin_increment_inch) :
    0 ≤ binary64_scale.pin_step f := by
  show 0 ≤ c_round (binary64 (binary64 f.pin_increment_inch / binary64 inches_per_pixel))
  apply c_round_nonneg
  apply binary64_nonneg
  apply div_nonneg (binary64_nonneg _ h)
  apply binary64_nonneg
  unfold inches_per_pixel
  norm_num

/-- The share `n / den` of a step `s` as the code computes it: the quotient
rounds into `[0, 1]`, the product into `[0, s]`. -/
theorem binary64_share (n den s : Int) (hn : 0 ≤ n) (hd : 0 < den) (hnd : n ≤ den)
    (hs0 : 0 ≤ s) (hs : s < 2 ^ 31) :
    0 ≤ binary64 ((n : ℚ) / (den : ℚ)) ∧ binary64 ((n : ℚ) / (den : ℚ)) ≤ 1 ∧
    0 ≤ binary64_scale.round_product n den s ∧ binary64_scale.round_product n den s ≤ s := by
  have hnq : (0 : ℚ) ≤ (n : ℚ) := by exact_mod_cast hn
  have hdq : (0 : ℚ) < (den : ℚ) := by exact_mod_cast hd
  have hndq : (n : ℚ) ≤ (den : ℚ) := by exact_mod_cast hnd
  have hsq : (0 : ℚ) ≤ (s : ℚ) := by exact_mod_cast hs0
  have hq0 : (0 : ℚ) ≤ (n : ℚ) / (den : ℚ) := div_nonneg hnq hdq.le
  have hq1 : (n : ℚ) / (den : ℚ) ≤ ((1 : Int) : ℚ) := by
    rw [div_le_iff₀ hdq]
    push_cast
    linarith
  have hr0 := binary64_nonneg _ hq0
  have hr1 : binary64 ((n : ℚ) / (den : ℚ)) ≤ 1 := by
    have := binary64_le_int _ 1 hq0 hq1 (by norm_num)
    exact_mod_cast this
  have hp0 : (0 : ℚ) ≤ binary64 ((n : ℚ) / (den : ℚ)) * (s : ℚ) := mul_nonneg hr0 hsq
  have hp1 : binary64 ((n : ℚ) / (den : ℚ)) * (s : ℚ) ≤ (s : ℚ) := by
    calc binary64 ((n : ℚ) / (den : ℚ)) * (s : ℚ) ≤ 1 * (s : ℚ) :=
          mul_le_mul_of_nonneg_right hr1 hsq
      _ = (s : ℚ) := one_mul _
  have hb0 := binary64_nonneg _ hp0
  have hb1 := binary64_le_int _ s hp0 hp1 (by omega)
  have hc := c_round_nonneg_le _ s hb0 hb1
  exact ⟨hr0, hr1, hc.1, hc.2⟩

theorem binary64_pin_increment :
    binary64 0.15 = 5404319552844595 / 36028797018963968 := by
  rw [binary64_eq 0.15 (-3) 5404319552844595 (by norm_num) (by norm_num) (by norm_num)
    (by norm_num) (by norm_num) (by norm_num)]
  norm_num

theorem binary64_inches_per_pixel :
    binary64 inches_per_pixel = 2818893078763741 / 288230376151711744 := by
  unfold inches_per_pixel
  rw [binary64_eq 0.00978 (-7) 5637786157527482 (by norm_num) (by norm_num) (by norm_num)
    (by norm_num) (by norm_num) (by norm_num)]
  norm_num

theorem binary64_step_quotient :
    binary64 ((5404319552844595 / 36028797018963968 : ℚ)
      / (2818893078763741 / 288230376151711744))
      = 4317100869795337 / 281474976710656 := by
  rw [binary64_eq _ 3 8634201739590674 (by norm_num) (by norm_num) (by norm_num)
    (by norm_num) (by norm_num) (by norm_num)]
  norm_num

/-- The pin step of the sample formats, computed in binary64, is 15 pixels. -/
theorem binary64_pin_step_sample (a b c d e : Int) :
    binary64_scale.pin_step (sample_format a b c d e) = 15 := by
  show c_round (binary64 (binary64 (0.15 : ℚ) / binary64 inches_per_pixel)) = 15
  rw [binary64_pin_increment, binary64_inches_per_pixel, binary64_step_quotient]
  unfold c_round
  norm_num

theorem binary64_half : binary64 (1 / 2) = 1 / 2 := by
  rw [binary64_eq (1 / 2) (-1) 4503599627370496 (by norm_num) (by norm_num) (by norm_num)
    (by norm_num) (by norm_num) (by norm_num)]
  norm_num

theorem binary64_half_step : binary64 (1 / 2 * 15) = 15 / 2 := by
  rw [binary64_eq (1 / 2 * 15) 2 8444249301319680 (by norm_num) (by norm_num) (by norm_num)
    (by norm_num) (by norm_num) (by norm_num)]
  norm_num

/-- Half of a step of 15 pixels is drawn as 8 pixels. -/
theorem binary64_round_product_three_six : binary64_scale.round_product 3 6 15 = 8 := by
  show c_round (binary64 (binary64 (((3 : Int) : ℚ) / ((6 : Int) : ℚ)) * ((15 : Int) : ℚ))) = 8
  have h : (((3 : Int) : ℚ) / ((6 : Int) : ℚ)) = 1 / 2 := by norm_num
  have h15 : ((15 : Int) : ℚ) = 15 := by norm_num
  rw [h, binary64_half, h15, binary64_half_step]
  unfold c_round
  norm_num

theorem binary64_fifteen_over_twenty_six :
    binary64 (15 / 26) = 2598230554252209 / 4503599627370496 := by
  rw [binary64_eq (15 / 26) (-1) 5196461108504418 (by norm_num) (by norm_num) (by norm_num)
    (by norm_num) (by norm_num) (by norm_num)]
  norm_num

theorem binary64_share_of_thirteen :
    binary64 ((2598230554252209 / 4503599627370496 : ℚ) * 13)
      = 8444249301319679 / 1125899906842624 := by
  rw [binary64_eq _ 2 8444249301319679 (by norm_num) (by norm_num) (by norm_num)
    (by norm_num) (by norm_num) (by norm_num)]
  norm_num

/-- The share `15 / 26` of a step of 13 pixels is `7.5` exactly and
`7.499999999999999` in binary64: the code draws 7 pixels where exact arithmetic
gives 8. -/
theorem binary64_round_product_below_exact :
    binary64_scale.round_product 15 26 13 = 7 ∧ exact_scale.round_product 15 26 13 = 8 := by
  constructor
  · show c_round (binary64 (binary64 (((15 : Int) : ℚ) / ((26 : Int) : ℚ))
        * ((13 : Int) : ℚ))) = 7
    have h : (((15 : Int) : ℚ) / ((26 : Int) : ℚ)) = 15 / 26 := by norm_num
    have h13 : ((13 : Int) : ℚ) = 13 := by norm_num
    rw [h, binary64_fifteen_over_twenty_six, h13, binary64_share_of_thirteen]
    unfold c_round
    norm_num
  · show c_round ((((15 : Int) : ℚ) / ((26 : Int) : ℚ)) * ((13 : Int) : ℚ)) = 8
    unfold c_round
    norm_num

/-! ## Shape of a draw call -/

theorem draw_pins_length (px : PixelScale) (hw step : Int) (m : KeyMakerGameModel) :
    ∀ (count start : Nat) (post pre : Int) (ds : List PinDrawing),
      draw_pins px hw step m count start post pre = some ds → ds.length = count := by
  intro count
  induction count with
  | zero =>
    intro start post pre ds h
    have := Option.some.inj h
    subst this
    rfl
  | succ c ih =>
    intro start post pre ds h
    unfold draw_pins at h
    rcases h1 : draw_pin px hw step m start post pre with _ | d0
    · simp [h1] at h
    · simp only [h1] at h
      rcases h2 : draw_pins px hw step m c (start + 1) d0.post_extra_x_pixel
          d0.pre_extra_x_pixel with _ | ds1
      · simp [h2] at h
      · simp only [h2] at h
        have := Option.some.inj h
        subst this
        simp [ih (start + 1) _ _ ds1 h2]

/-- The last primitive of a draw call is the depth readout at `(0, 10)`. -/
theorem draw_callback_last (px : PixelScale) (st : DrawStatics) (m : KeyMakerGameModel)
    (r : DrawStatics × List Primitive)
    (h : key_maker_view_game_draw_callback px st m = some r) :
    ∃ xstr, depth_readout m = some xstr ∧
      r.2.getLast? = some (Primitive.str 0 10 xstr) := by
  obtain ⟨ds, xstr, _, hx, hr⟩ := draw_callback_prims px st m r h
  refine ⟨xstr, hx, ?_⟩
  rw [hr]
  simp [List.getLast?_append]

/-! # The claims -/

/-! ## C1: The bitting invariant -/

/-- C1, as the code has it: for every key format whose depth indices fit the
8-bit cells, `0 ≤ min_depth_ind ≤ max_depth_ind ≤ 255`, and with `macs ≥ 0`, every
model reached from the initial one (`initialize_model`, then cursor 1) by a finite
sequence of input events keeps the format and satisfies the bitting invariant:
every real pin has a depth in `[min_depth_ind, max_depth_ind]` and adjacent real
pins differ by at most `macs`.  When moreover `1 ≤ pin_num ≤ 254` the initial model
exists and every sequence of events yields a model. -/
theorem reachable_bitting_ok (junk : Nat → Nat) (all_formats : List KeyFormat)
    (f : KeyFormat) (h0 : all_formats[0]? = some f)
    (hmin : 0 ≤ f.min_depth_ind) (hmm : f.min_depth_ind ≤ f.max_depth_ind)
    (hmax : f.max_depth_ind ≤ 255) (hmacs : 0 ≤ f.macs) :
    (∀ m0 events m, key_maker_app_alloc junk all_formats = some m0 →
      run_inputs events m0 = some m → m.format = f ∧ bitting_ok m) ∧
    (1 ≤ f.pin_num → f.pin_num ≤ 254 →
      ∃ m0, key_maker_app_alloc junk all_formats = some m0 ∧
        ∀ events, ∃ m, run_inputs events m0 = some m) := by
  constructor
  · intro m0 events m hm0 hrun
    have hinv0 := model_inv_initial junk all_formats f m0 h0 hmin hmm hmax hmacs hm0
    have hinv := model_inv_run f hmin hmax events m0 m hinv0 hrun
    exact ⟨hinv.1, bitting_ok_of_inv f m hinv⟩
  · intro hlo hhi
    rcases app_alloc_cases junk all_formats f h0 with ⟨_, hbad⟩ | ⟨m0, hm0, _⟩
    · omega
    · refine ⟨m0, hm0, ?_⟩
      intro events
      exact run_total f hmin hmax hlo events m0
        (model_inv_initial junk all_formats f m0 h0 hmin hmm hmax hmacs hm0)

/-- The amended C1 at a five-pin format with depths `0..9` and `macs = 5`: the
initial model exists and every sequence of events yields a model. -/
theorem reachable_bitting_ok_witness :
    ∃ m0, key_maker_app_alloc zero_junk [scenario_format] = some m0 ∧
      ∀ events, ∃ m, run_inputs events m0 = some m :=
  (reachable_bitting_ok zero_junk [scenario_format] scenario_format rfl
    (by decide) (by decide) (by decide) (by decide)).2 (by decide) (by decide)

/-- C1 fails outside the 8-bit range.  With `min_depth_ind = -1 ≤ max_depth_ind = 5`
and `macs = 4 ≥ 0` the initial model already holds 255 in every cell, above
`max_depth_ind`.  With `min_depth_ind = 1 ≤ max_depth_ind = 256` and `macs = 256` on
one pin, 255 Down inputs from the initial model wrap the pin to 0, below
`min_depth_ind`. -/
theorem bitting_breaks_outside_u8 :
    (negative_min_format.min_depth_ind ≤ negative_min_format.max_depth_ind ∧
      0 ≤ negative_min_format.macs ∧
      (key_maker_app_alloc zero_junk [negative_min_format]).map (fun m => m.depth)
        = some [255, 255, 255, 255, 255, 255] ∧
      ¬ ((255 : Int) ≤ negative_min_format.max_depth_ind)) ∧
    (wide_depth_format.min_depth_ind ≤ wide_depth_format.max_depth_ind ∧
      0 ≤ wide_depth_format.macs ∧
      ((key_maker_app_alloc zero_junk [wide_depth_format]).bind
        (run_inputs (List.replicate 255 (short InputKey.Down)))).map (fun m => m.depth)
        = some [0, 1] ∧
      ¬ (wide_depth_format.min_depth_ind ≤ (0 : Int))) := by
  decide

/-! ## C2: Deepening one pin of the fresh model -/

/-- C2, as the code has it: for a format with
`0 ≤ min_depth_ind ≤ max_depth_ind ≤ 255`, `macs ≥ 0` and `pin_num ≤ 254`, take the
freshly created model, move the cursor to a pin `p` in `[1, pin_num]` by `p - 1`
Right inputs and give `k` Down inputs.  The run returns a model with the cursor
on `p`, pin `p` at depth `min_depth_ind + min(k, macs, max_depth_ind - min_depth_ind)`
and every other cell, the sentinel included, at `min_depth_ind`. -/
theorem deepen_from_fresh (junk : Nat → Nat) (all_formats : List KeyFormat) (f : KeyFormat)
    (p k : Nat) (h0 : all_formats[0]? = some f)
    (hmin : 0 ≤ f.min_depth_ind) (hmm : f.min_depth_ind ≤ f.max_depth_ind)
    (hmax : f.max_depth_ind ≤ 255) (hmacs : 0 ≤ f.macs) (hpin : f.pin_num ≤ 254)
    (hp1 : 1 ≤ p) (hp2 : (p : Int) ≤ f.pin_num) :
    ∃ m0 m, key_maker_app_alloc junk all_formats = some m0 ∧
      run_inputs (List.replicate (p - 1) (short InputKey.Right) ++
        List.replicate k (short InputKey.Down)) m0 = some m ∧
      m.pin_slc = p ∧ m.format = f ∧
      ∀ i : Nat, (i : Int) ≤ f.pin_num →
        ∃ v, m.depth[i]? = some v ∧
          (v : Int) = if i + 1 = p
            then f.min_depth_ind + min (k : Int) (min f.macs (f.max_depth_ind - f.min_depth_ind))
            else f.min_depth_ind := by
  rcases app_alloc_cases junk all_formats f h0 with
    ⟨_, hbad⟩ | ⟨m0, hm0, hf, hp, hlo, hhi, hlen, _, hcells⟩
  · omega
  · have hc : ((to_u8 f.min_depth_ind : Nat) : Int) = f.min_depth_ind :=
      to_u8_small _ hmin (by omega)
    have hright := run_right (p - 1) m0 (by rw [hp, hf]; omega) (by rw [hf]; omega)
    have hs0 : deepened f p 0 { m0 with pin_slc := m0.pin_slc + (p - 1) } := by
      refine ⟨hf, ?_, hlen, ?_⟩
      · show m0.pin_slc + (p - 1) = p
        omega
      · intro i hi
        obtain ⟨v, hv⟩ := cell_exists m0.depth f.pin_num i hlen hi
        refine ⟨v, hv, ?_⟩
        rw [hcells i v hv, hc]
        split <;> omega
    obtain ⟨m, hm, hs⟩ := deepened_run f p hmax hp1 hp2 k 0 _ (le_refl 0) (by omega) hs0
    refine ⟨m0, m, hm0, ?_, hs.2.1, hs.1, ?_⟩
    · rw [run_inputs_append, hright]
      exact hm
    · intro i hi
      obtain ⟨v, hv, hvv⟩ := hs.2.2.2 i hi
      refine ⟨v, hv, ?_⟩
      rw [hvv]
      simp only [zero_add]

/-- The amended C2 at the scenario of the spec: five pins, `macs = 5`, depths
`0..9`, pin 3; after six Down inputs pin 3 is at depth `min(6, 5, 9) = 5`. -/
theorem deepen_from_fresh_witness :
    ∃ m0 m, key_maker_app_alloc zero_junk [scenario_format] = some m0 ∧
      run_inputs (List.replicate (3 - 1) (short InputKey.Right) ++
        List.replicate 6 (short InputKey.Down)) m0 = some m ∧
      m.pin_slc = 3 ∧ m.format = scenario_format ∧
      ∀ i : Nat, (i : Int) ≤ scenario_format.pin_num →
        ∃ v, m.depth[i]? = some v ∧
          (v : Int) = if i + 1 = 3
            then scenario_format.min_depth_ind + min ((6 : Nat) : Int)
              (min scenario_format.macs
                (scenario_format.max_depth_ind
                  - scenario_format.min_depth_ind))
            else scenario_format.min_depth_ind :=
  deepen_from_fresh zero_junk [scenario_format] scenario_format 3 6 rfl
    (by decide) (by decide) (by decide) (by decide) (by decide) (by decide) (by decide)

/-- C2 fails on formats it does not exclude.  Each line gives the depth the code
leaves on pin 1 and the depth the formula of the claim asks for:
`max_depth_ind = 3` below `min_depth_ind = 5`, one Down: 5 against 3;
`macs = -1`, one Down: 0 against -1;
`max_depth_ind = 256`, 255 Downs: 0 against 256;
`min_depth_ind = -1`, no Down: 255 against -1. -/
theorem deepen_formula_breaks :
    (((key_maker_app_alloc zero_junk [inverted_format]).bind
        (run_inputs (List.replicate 1 (short InputKey.Down)))).map (fun m => m.depth[0]?)
        = some (some 5) ∧
      inverted_format.min_depth_ind + min (1 : Int) (min inverted_format.macs
        (inverted_format.max_depth_ind - inverted_format.min_depth_ind)) = 3) ∧
    (((key_maker_app_alloc zero_junk [negative_macs_format]).bind
        (run_inputs (List.replicate 1 (short InputKey.Down)))).map (fun m => m.depth[0]?)
        = some (some 0) ∧
      negative_macs_format.min_depth_ind + min (1 : Int) (min negative_macs_format.macs
        (negative_macs_format.max_depth_ind - negative_macs_format.min_depth_ind)) = -1) ∧
    (((key_maker_app_alloc zero_junk [wide_depth_format]).bind
        (run_inputs (List.replicate 255 (short InputKey.Down)))).map (fun m => m.depth[0]?)
        = some (some 0) ∧
      wide_depth_format.min_depth_ind + min (255 : Int) (min wide_depth_format.macs
        (wide_depth_format.max_depth_ind - wide_depth_format.min_depth_ind)) = 256) ∧
    (((key_maker_app_alloc zero_junk [negative_min_format]).bind
        (run_inputs (List.replicate 0 (short InputKey.Down)))).map (fun m => m.depth[0]?)
        = some (some 255) ∧
      negative_min_format.min_depth_ind + min (0 : Int) (min negative_min_format.macs
        (negative_min_format.max_depth_ind - negative_min_format.min_depth_ind)) = -1) := by
  decide

/-! ## C3: The MACS tests of a committed change -/

/-- C3, as the code has it: the MACS tests are made on the depth before the
change, so a committed change leaves the new depth within `macs` of every present
neighbour with `≤` in place of `<`, on the side the change moves to.  For a block
of `uint8_t` cells: after a committed Up, `neighbour - new ≤ macs` for the left
neighbour (cursor above 1) and the right neighbour (cursor below `pin_num`); after
a committed Down, `new - neighbour ≤ macs` for both; so `|new - neighbour| ≤ macs`
for a neighbour that was within `macs` of the old depth, when the cell does not
wrap.  With the cursor on the last pin (`pin_num ≥ 2`) a Down is rejected whenever
its result would make `new - left_neighbour > macs`. -/
theorem commit_within_macs (m m1 : KeyMakerGameModel) (r : Bool) (h8 : is_u8 m.depth) :
    (key_maker_view_game_input_callback (short InputKey.Up) m = some (m1, r) → m1 ≠ m →
      ∃ j v x, m.pin_slc = j + 1 ∧ m.depth[j]? = some v ∧ m1.depth[j]? = some x ∧
        (∀ i u, j = i + 1 → m.depth[i]? = some u →
          (u : Int) - (x : Int) ≤ m.format.macs ∧
          (1 ≤ v → |(v : Int) - (u : Int)| ≤ m.format.macs →
            |(x : Int) - (u : Int)| ≤ m.format.macs)) ∧
        (((j + 1 : Nat) : Int) < m.format.pin_num →
          ∃ w, m.depth[j + 1]? = some w ∧ (w : Int) - (x : Int) ≤ m.format.macs ∧
            (1 ≤ v → |(v : Int) - (w : Int)| ≤ m.format.macs →
              |(x : Int) - (w : Int)| ≤ m.format.macs))) ∧
    (key_maker_view_game_input_callback (short InputKey.Down) m = some (m1, r) → m1 ≠ m →
      ∃ j v x, m.pin_slc = j + 1 ∧ m.depth[j]? = some v ∧ m1.depth[j]? = some x ∧
        (∀ i u, j = i + 1 → m.depth[i]? = some u →
          (x : Int) - (u : Int) ≤ m.format.macs ∧
          (v < 255 → |(v : Int) - (u : Int)| ≤ m.format.macs →
            |(x : Int) - (u : Int)| ≤ m.format.macs)) ∧
        (((j + 1 : Nat) : Int) < m.format.pin_num →
          ∃ w, m.depth[j + 1]? = some w ∧ (x : Int) - (w : Int) ≤ m.format.macs ∧
            (v < 255 → |(v : Int) - (w : Int)| ≤ m.format.macs →
              |(x : Int) - (w : Int)| ≤ m.format.macs))) ∧
    (∀ i u v, m.pin_slc = i + 2 → ((i + 2 : Nat) : Int) = m.format.pin_num →
      m.depth[i]? = some u → m.depth[i + 1]? = some v →
      ((v : Int) + 1) - (u : Int) > m.format.macs →
      key_maker_view_game_input_callback (short InputKey.Down) m = some (m, false)) := by
  refine ⟨?_, ?_, ?_⟩
  · intro hcb hne
    rcases input_up_cases m m1 (callback_up_some m m1 r hcb) with h | h
    · exact absurd h hne
    · obtain ⟨j, v, hp, hv, _, hm1, hright, hleft⟩ := h
      refine ⟨j, v, to_u8 ((v : Int) - 1), hp, hv, ?_, ?_, ?_⟩
      · rw [hm1]; exact set_self_some m.depth j v _ hv
      · intro i u hji hu
        obtain ⟨u', hu', hlt⟩ := hleft i hji
        have : u' = u := by rw [hu] at hu'; exact (Option.some.inj hu').symm
        subst this
        exact ⟨u8_dec_bound u' v _ (h8 j v hv) hlt,
          fun h1 habs => u8_dec_abs u' v _ (h8 j v hv) hlt h1 habs⟩
      · intro hlt
        obtain ⟨w, hw, hlt'⟩ := hright (Or.inr (by omega))
        exact ⟨w, hw, u8_dec_bound w v _ (h8 j v hv) hlt',
          fun h1 habs => u8_dec_abs w v _ (h8 j v hv) hlt' h1 habs⟩
  · intro hcb hne
    rcases input_down_cases m m1 (callback_down_some m m1 r hcb) with h | h
    · exact absurd h hne
    · obtain ⟨j, v, hp, hv, _, hm1, hright, hleft⟩ := h
      refine ⟨j, v, to_u8 ((v : Int) + 1), hp, hv, ?_, ?_, ?_⟩
      · rw [hm1]; exact set_self_some m.depth j v _ hv
      · intro i u hji hu
        obtain ⟨u', hu', hlt⟩ := hleft i hji
        have : u' = u := by rw [hu] at hu'; exact (Option.some.inj hu').symm
        subst this
        exact ⟨u8_inc_bound u' v _ (h8 j v hv) hlt,
          fun h1 habs => u8_inc_abs u' v _ hlt h1 habs⟩
      · intro hlt
        obtain ⟨w, hw, hlt'⟩ := hright (Or.inr (by omega))
        exact ⟨w, hw, u8_inc_bound w v _ (h8 j v hv) hlt',
          fun h1 habs => u8_inc_abs w v _ hlt' h1 habs⟩
  · intro i u v hp hn hu hv hgt
    rw [callback_down, input_down_last m i u v hp hn hu hv]
    have : ¬ ((v : Int) < m.format.max_depth_ind ∧ (v : Int) - (u : Int) < m.format.macs) := by
      omega
    simp [this]

/-- The amended C3 at the five-pin model with `macs = 5`: the committed Down on
pin 3 (depth 4 to 5, neighbours at 0) ends within `macs` of both neighbours. -/
theorem commit_within_macs_witness :
    ∃ j v x, macs_edge_model.pin_slc = j + 1 ∧ macs_edge_model.depth[j]? = some v ∧
      ({ macs_edge_model with depth := [0, 0, 5, 0, 0, 0] } : KeyMakerGameModel).depth[j]?
        = some x ∧
      (∀ i u, j = i + 1 → macs_edge_model.depth[i]? = some u →
        (x : Int) - (u : Int) ≤ macs_edge_model.format.macs ∧
        (v < 255 → |(v : Int) - (u : Int)| ≤ macs_edge_model.format.macs →
          |(x : Int) - (u : Int)| ≤ macs_edge_model.format.macs)) ∧
      (((j + 1 : Nat) : Int) < macs_edge_model.format.pin_num →
        ∃ w, macs_edge_model.depth[j + 1]? = some w ∧
          (x : Int) - (w : Int) ≤ macs_edge_model.format.macs ∧
          (v < 255 → |(v : Int) - (w : Int)| ≤ macs_edge_model.format.macs →
            |(x : Int) - (w : Int)| ≤ macs_edge_model.format.macs)) :=
  (commit_within_macs macs_edge_model { macs_edge_model with depth := [0, 0, 5, 0, 0, 0] }
    false (is_u8_of_all _ (by decide))).2.1 rfl
    (by intro h
        have h2 := congrArg KeyMakerGameModel.depth h
        revert h2; decide)

/-- C3 fails at the five-pin model with `macs = 5`: a Down input on pin 3 at
depth 4, both neighbours at 0, commits depth 5, and `|5 - 0| < 5` is false. -/
theorem commit_reaches_macs :
    (key_maker_view_game_input_callback (short InputKey.Down) macs_edge_model).map
      (fun r => r.1.depth) = some [0, 0, 5, 0, 0, 0] ∧
    macs_edge_model.depth = [0, 0, 4, 0, 0, 0] ∧
    macs_edge_model.pin_slc = 3 ∧
    ¬ (|(5 : Int) - 0| < macs_edge_model.format.macs) := by
  decide

/-! ## C4: The range tests -/

/-- C4, as the code has it: with the cursor on a cell of the block, an Up input
on a pin at `min_depth_ind` and a Down input on a pin at `max_depth_ind` leave the
whole model unchanged, whatever the cursor position and the neighbours; and on a
format whose depth indices fit the 8-bit cells (`0 ≤ min_depth_ind`,
`max_depth_ind ≤ 255`) an Up or Down input on a pin whose depth lies in
`[min_depth_ind, max_depth_ind]` leaves that depth in
`[min_depth_ind, max_depth_ind]`. -/
theorem adjust_stays_in_range (m : KeyMakerGameModel) (j v : Nat)
    (hp : m.pin_slc = j + 1) (hv : m.depth[j]? = some v) :
    ((v : Int) = m.format.min_depth_ind →
      key_maker_view_game_input_callback (short InputKey.Up) m = some (m, false)) ∧
    ((v : Int) = m.format.max_depth_ind →
      key_maker_view_game_input_callback (short InputKey.Down) m = some (m, false)) ∧
    (0 ≤ m.format.min_depth_ind → m.format.max_depth_ind ≤ 255 →
      m.format.min_depth_ind ≤ (v : Int) → (v : Int) ≤ m.format.max_depth_ind →
      ∀ key m1 r x, key = InputKey.Up ∨ key = InputKey.Down →
        key_maker_view_game_input_callback (short key) m = some (m1, r) →
        m1.depth[j]? = some x →
        m.format.min_depth_ind ≤ (x : Int) ∧ (x : Int) ≤ m.format.max_depth_ind) := by
  have r0 : rd m.depth ((m.pin_slc : Int) - 1) = some v := by
    rw [hp, ← hv]; exact rd_pred m.depth j
  refine ⟨?_, ?_, ?_⟩
  · intro h
    rw [callback_up]
    unfold input_up
    simp only [r0]
    have : ¬ ((v : Int) > m.format.min_depth_ind) := by omega
    simp [this]
  · intro h
    rw [callback_down]
    unfold input_down
    simp only [r0]
    have : ¬ ((v : Int) < m.format.max_depth_ind) := by omega
    simp [this]
  · intro hmin hmax hlo hhi key m1 r x hkey hcb hx
    rcases hkey with hk | hk
    · subst hk
      rcases input_up_cases m m1 (callback_up_some m m1 r hcb) with h | h
      · rw [h, hv] at hx
        have := Option.some.inj hx
        omega
      · obtain ⟨j', v', hp', hv', hgt, hm1, _, _⟩ := h
        have hj : j' = j := by omega
        subst hj
        have hvv : v' = v := by rw [hv] at hv'; exact (Option.some.inj hv').symm
        subst hvv
        rw [hm1] at hx
        simp only [] at hx
        rw [set_self_some m.depth j' v' _ hv] at hx
        have hx' := Option.some.inj hx
        rw [to_u8_pred v' (by omega) (by omega)] at hx'
        omega
    · subst hk
      rcases input_down_cases m m1 (callback_down_some m m1 r hcb) with h | h
      · rw [h, hv] at hx
        have := Option.some.inj hx
        omega
      · obtain ⟨j', v', hp', hv', hgt, hm1, _, _⟩ := h
        have hj : j' = j := by omega
        subst hj
        have hvv : v' = v := by rw [hv] at hv'; exact (Option.some.inj hv').symm
        subst hvv
        rw [hm1] at hx
        simp only [] at hx
        rw [set_self_some m.depth j' v' _ hv] at hx
        have hx' := Option.some.inj hx
        rw [to_u8_succ v' (by omega)] at hx'
        omega

/-- The amended C4 at the five-pin model, cursor on pin 3 at depth 4: after a Down
input the pin is at depth 5, inside the range of the format. -/
theorem adjust_stays_in_range_witness :
    macs_edge_model.format.min_depth_ind ≤ ((5 : Nat) : Int) ∧
      ((5 : Nat) : Int) ≤ macs_edge_model.format.max_depth_ind :=
  (adjust_stays_in_range macs_edge_model 2 4 rfl rfl).2.2 (by decide) (by decide)
    (by decide) (by decide) InputKey.Down
    { macs_edge_model with depth := [0, 0, 5, 0, 0, 0] } false 5 (Or.inr rfl) rfl rfl

/-- C4 fails on a format whose `max_depth_ind` is 256 and `min_depth_ind` is 1:
a Down input on a pin at depth 255, inside `[1, 256]`, commits, and the 8-bit
cell then holds 0, below `min_depth_ind`. -/
theorem adjust_leaves_range :
    wide_depth_model.format.min_depth_ind ≤ 255 ∧
    (255 : Int) < wide_depth_model.format.max_depth_ind ∧
    (key_maker_view_game_input_callback (short InputKey.Down) wide_depth_model).map
      (fun r => r.1.depth[0]?) = some (some 0) ∧
    ¬ (wide_depth_model.format.min_depth_ind ≤ 0) := by
  decide

/-! ## C5: Frame of a depth adjustment -/

/-- C5, as the code has it: on a format whose depth indices fit the 8-bit cells
(`0 ≤ min_depth_ind`, `max_depth_ind ≤ 255`), for every model state with a block
of `pin_num + 1` cells and the cursor in `[1, pin_num]`, an Up and a Down input
both return, and the model after either is the old model or the old model with
`depth[cursor - 1]` alone replaced, by the old value minus one (Up) or plus one
(Down); every other cell, the sentinel, the cursor and the format are as
before. -/
theorem adjust_frame (m : KeyMakerGameModel) (j : Nat)
    (hmin : 0 ≤ m.format.min_depth_ind) (hmax : m.format.max_depth_ind ≤ 255)
    (h8 : is_u8 m.depth)
    (hlen : (m.depth.length : Int) = m.format.pin_num + 1)
    (hp : m.pin_slc = j + 1) (hpn : ((j + 1 : Nat) : Int) ≤ m.format.pin_num) :
    ∃ v up dn, m.depth[j]? = some v ∧
      key_maker_view_game_input_callback (short InputKey.Up) m = some (up, false) ∧
      key_maker_view_game_input_callback (short InputKey.Down) m = some (dn, false) ∧
      (up = m ∨ (1 ≤ v ∧ up = { m with depth := m.depth.set j (v - 1) })) ∧
      (dn = m ∨ dn = { m with depth := m.depth.set j (v + 1) }) ∧
      (∀ i, i ≠ j → up.depth[i]? = m.depth[i]? ∧ dn.depth[i]? = m.depth[i]?) := by
  obtain ⟨v, hv, hup⟩ := input_up_total m j hlen hp hpn
  obtain ⟨v', hv', hdn⟩ := input_down_total m j hlen hp hpn
  have hvv : v' = v := by rw [hv] at hv'; exact (Option.some.inj hv').symm
  subst hvv
  have hv8 : v' < 256 := h8 j v' hv
  have hU : ∃ up, input_up m = some up ∧
      (up = m ∨ (1 ≤ v' ∧ up = { m with depth := m.depth.set j (v' - 1) })) := by
    rcases hup with h | ⟨hlt, h⟩
    · exact ⟨m, h, Or.inl rfl⟩
    · refine ⟨_, h, Or.inr ⟨by omega, ?_⟩⟩
      simp only [with_cell]
      rw [to_u8_pred v' (by omega) hv8]
  have hD : ∃ dn, input_down m = some dn ∧
      (dn = m ∨ dn = { m with depth := m.depth.set j (v' + 1) }) := by
    rcases hdn with h | ⟨hlt, h⟩
    · exact ⟨m, h, Or.inl rfl⟩
    · refine ⟨_, h, Or.inr ?_⟩
      simp only [with_cell]
      rw [to_u8_succ v' (by omega)]
  obtain ⟨up, hup1, hup2⟩ := hU
  obtain ⟨dn, hdn1, hdn2⟩ := hD
  refine ⟨v', up, dn, hv, ?_, ?_, hup2, hdn2, ?_⟩
  · rw [callback_up, hup1]; rfl
  · rw [callback_down, hdn1]; rfl
  · intro i hij
    constructor
    · rcases hup2 with h | ⟨_, h⟩
      · rw [h]
      · rw [h]; exact List.getElem?_set_ne (Ne.symm hij)
    · rcases hdn2 with h | h
      · rw [h]
      · rw [h]; exact List.getElem?_set_ne (Ne.symm hij)

/-- The amended C5 at the five-pin model with pin 3 at depth 4: the cell exists
and both inputs return. -/
theorem adjust_frame_witness :
    ∃ v up dn, macs_edge_model.depth[2]? = some v ∧
      key_maker_view_game_input_callback (short InputKey.Up) macs_edge_model
        = some (up, false) ∧
      key_maker_view_game_input_callback (short InputKey.Down) macs_edge_model
        = some (dn, false) ∧
      (up = macs_edge_model ∨ (1 ≤ v ∧
        up = { macs_edge_model with depth := macs_edge_model.depth.set 2 (v - 1) })) ∧
      (dn = macs_edge_model ∨
        dn = { macs_edge_model with depth := macs_edge_model.depth.set 2 (v + 1) }) ∧
      (∀ i, i ≠ 2 → up.depth[i]? = macs_edge_model.depth[i]? ∧
        dn.depth[i]? = macs_edge_model.depth[i]?) :=
  adjust_frame macs_edge_model 2 (by decide) (by decide)
    (is_u8_of_all _ (by decide))
    (by decide) rfl (by decide)

/-- C5 fails on a format whose `max_depth_ind` is 256: a Down input on a pin at
depth 255 commits and the 8-bit cell wraps to 0, a change of `-255`, not `+1`. -/
theorem adjust_wraps_cell :
    wide_depth_model.depth = [255, 1] ∧
    (wide_depth_model.pin_slc : Int) ≤ wide_depth_model.format.pin_num ∧
    (key_maker_view_game_input_callback (short InputKey.Down) wide_depth_model).map
      (fun r => r.1.depth) = some [0, 1] := by
  decide

/-! ## C6: Cursor moves -/

/-- C6, as the code has it: on a format whose pin count fits the 8-bit cursor
(`pin_num ≤ 255`), Left moves the cursor one pin down when it is above 1 and keeps
it at 1 otherwise, Right moves it one pin up when it is below `pin_num` and keeps
it at `pin_num` otherwise; both change nothing but the cursor, and a cursor in
`[1, pin_num]` stays there. -/
theorem cursor_move_clamped (m : KeyMakerGameModel) (hfit : m.format.pin_num ≤ 255) :
    key_maker_view_game_input_callback (short InputKey.Left) m = some (input_left m, false) ∧
    key_maker_view_game_input_callback (short InputKey.Right) m
      = some (input_right m, false) ∧
    (1 < m.pin_slc → (input_left m).pin_slc + 1 = m.pin_slc) ∧
    (m.pin_slc = 1 → (input_left m).pin_slc = 1) ∧
    ((m.pin_slc : Int) < m.format.pin_num → (input_right m).pin_slc = m.pin_slc + 1) ∧
    ((m.pin_slc : Int) = m.format.pin_num → (input_right m).pin_slc = m.pin_slc) ∧
    input_left m = { m with pin_slc := (input_left m).pin_slc } ∧
    input_right m = { m with pin_slc := (input_right m).pin_slc } ∧
    (1 ≤ m.pin_slc → (m.pin_slc : Int) ≤ m.format.pin_num →
      1 ≤ (input_left m).pin_slc ∧ ((input_left m).pin_slc : Int) ≤ m.format.pin_num ∧
      1 ≤ (input_right m).pin_slc ∧ ((input_right m).pin_slc : Int) ≤ m.format.pin_num) := by
  refine ⟨rfl, rfl, ?_, ?_, ?_, ?_, ?_, ?_, ?_⟩
  · intro h; simp only [input_left, h, if_true]; omega
  · intro h; simp [input_left, h]
  · intro h
    have h2 : (m.pin_slc + 1) % 256 = m.pin_slc + 1 := by omega
    simp [input_right, h, h2]
  · intro h; simp [input_right, h]
  · unfold input_left; split <;> rfl
  · unfold input_right; split <;> rfl
  · intro h1 h2
    unfold input_left input_right
    refine ⟨?_, ?_, ?_, ?_⟩
    · split
      · show 1 ≤ m.pin_slc - 1; omega
      · exact h1
    · split
      · show ((m.pin_slc - 1 : Nat) : Int) ≤ m.format.pin_num; omega
      · exact h2
    · split
      · show 1 ≤ (m.pin_slc + 1) % 256; omega
      · exact h1
    · split
      · rename_i h
        have h3 : (m.pin_slc + 1) % 256 = m.pin_slc + 1 := by omega
        simp only [h3]; omega
      · exact h2

/-- The amended C6 at a five-pin model with the cursor on pin 3. -/
theorem cursor_move_clamped_witness :
    macs_edge_model.format.pin_num ≤ 255 ∧
      (input_right macs_edge_model).pin_slc = macs_edge_model.pin_slc + 1 :=
  ⟨by decide, (cursor_move_clamped macs_edge_model (by decide)).2.2.2.2.1 (by decide)⟩

/-- C6 fails on a format of 256 pins: with the cursor on pin 255, below
`pin_num = 256`, a Right input wraps the 8-bit cursor to 0 instead of 256, and the
cursor leaves `[1, pin_num]`. -/
theorem cursor_right_wraps :
    (wide_cursor_model.pin_slc : Int) < wide_cursor_model.format.pin_num ∧
    (key_maker_view_game_input_callback (short InputKey.Right) wide_cursor_model).map
      (fun r => r.1.pin_slc) = some 0 := by
  decide

/-! ## C7: Format selection -/

/-- C7 does not hold of the code: `key_maker_total_pin_change` stores the format
and a fresh block and nothing else.  Selecting the five-pin format (depths `1..7`)
on an edited six-pin model with the cursor on pin 6 leaves the cursor on 6, above
the new `pin_num`, and the cells hold what the allocator left: 0 from a
zero-filling allocator, 9 from one that leaves nines, never set to
`min_depth_ind = 1`. -/
theorem format_change_resets_nothing :
    (key_maker_total_pin_change zero_junk two_formats 0 edited_model).map
      (fun m => (m.format_index, m.format.pin_num, m.format.min_depth_ind, m.total_pin,
        m.pin_slc, m.depth)) = some (0, 5, 1, 5, 6, [0, 0, 0, 0, 0, 0]) ∧
    (key_maker_total_pin_change nine_junk two_formats 0 edited_model).map
      (fun m => (m.format_index, m.format.pin_num, m.format.min_depth_ind, m.total_pin,
        m.pin_slc, m.depth)) = some (0, 5, 1, 5, 6, [9, 9, 9, 9, 9, 9]) :=
  ⟨rfl, rfl⟩

/-! ## C8: The last pin -/

/-- C8, as the code has it: with the cursor on the last pin (`pin_num ≥ 2`) an Up
or Down input is tested against the left neighbour only.  The adjustment is
committed exactly when the range test and the MACS test against `depth[pin_num - 2]`
pass; the sentinel `depth[pin_num]` takes no part. -/
theorem last_pin_left_only (m : KeyMakerGameModel) (i u v : Nat)
    (hp : m.pin_slc = i + 2) (hn : ((i + 2 : Nat) : Int) = m.format.pin_num)
    (hu : m.depth[i]? = some u) (hv : m.depth[i + 1]? = some v) :
    key_maker_view_game_input_callback (short InputKey.Up) m
      = some (if m.format.min_depth_ind < (v : Int) ∧ (u : Int) - (v : Int) < m.format.macs
          then with_cell m (i + 1) ((v : Int) - 1) else m, false) ∧
    key_maker_view_game_input_callback (short InputKey.Down) m
      = some (if (v : Int) < m.format.max_depth_ind ∧ (v : Int) - (u : Int) < m.format.macs
          then with_cell m (i + 1) ((v : Int) + 1) else m, false) := by
  constructor
  · rw [callback_up, input_up_last m i u v hp hn hu hv]; rfl
  · rw [callback_down, input_down_last m i u v hp hn hu hv]; rfl

/-- The amended C8 at the five-pin model with the cursor on pin 5. -/
theorem last_pin_left_only_witness :
    key_maker_view_game_input_callback (short InputKey.Down) last_pin_model
      = some (if ((5 : Nat) : Int) < last_pin_model.format.max_depth_ind ∧
            ((5 : Nat) : Int) - ((3 : Nat) : Int) < last_pin_model.format.macs
          then with_cell last_pin_model (3 + 1) (((5 : Nat) : Int) + 1)
          else last_pin_model, false) :=
  (last_pin_left_only last_pin_model 3 3 5 rfl (by decide) rfl rfl).2

/-- C8 fails at the five-pin model with `macs = 5`: with the last pin at depth 5
and the sentinel at 0 the MACS test against the sentinel, `5 - 0 < 5`, fails, the
test against the left neighbour at 3 passes, and the Down input commits depth 6. -/
theorem last_pin_ignores_sentinel :
    last_pin_model.depth = [0, 0, 1, 3, 5, 0] ∧
    (last_pin_model.pin_slc : Int) = last_pin_model.format.pin_num ∧
    ¬ ((5 : Int) - 0 < last_pin_model.format.macs) ∧
    (key_maker_view_game_input_callback (short InputKey.Down) last_pin_model).map
      (fun r => r.1.depth) = some [0, 0, 1, 3, 6, 0] := by
  decide

/-! ## C9: The half width across draw calls -/

/-- C9 does not hold of the code: the half width is computed on the first call
only (`static bool initialized`).  With the pixel scale evaluated exactly, an uncut
five-pin key on the format with `pin_width_inch = 0.031` drawn by the first call
has half width 2 and the shoulder of pin 1 from x = 23 to x = 27; the same model
drawn after a call on the format with `pin_width_inch = 0.084` has half width 4 and
the shoulder from x = 21 to x = 29. -/
theorem draw_keeps_first_half_width :
    (key_maker_view_game_draw_callback exact_scale DrawStatics.start narrow_model).map
      (fun r => (r.1.pin_half_width_pixel, r.2[1]?))
      = some (2, some (Primitive.line 23 29 27 29)) ∧
    ((key_maker_view_game_draw_callback exact_scale DrawStatics.start wide_model).bind
      (fun r => key_maker_view_game_draw_callback exact_scale r.1 narrow_model)).map
      (fun r => (r.1.pin_half_width_pixel, r.2[1]?))
      = some (4, some (Primitive.line 21 29 29 29)) := by
  constructor
  · simp [key_maker_view_game_draw_callback, DrawStatics.start, narrow_model, sample_model,
      draw_pins, draw_pin, rd, depth_readout, depth_str_loop, to_u8, PinDrawing.prims,
      narrow_fields, digits_zero, narrow_half_width, narrow_top_contour,
      narrow_pin_center_one, narrow_depth_pixel_zero]
  · simp [key_maker_view_game_draw_callback, DrawStatics.start, narrow_model, wide_model,
      scenario_format, sample_model, draw_pins, draw_pin, rd, depth_readout, depth_str_loop, to_u8,
      PinDrawing.prims, narrow_fields, sample_fields, digits_zero, exact_half_width,
      narrow_top_contour, narrow_pin_center_one, narrow_depth_pixel_zero]

/-! ## C10: Walls of an uncut pin -/

/-- C11, as the code has it: in a render of a format with `min_depth_ind = 0`, for
every pin whose right-wall test holds (`d + next_depth > clearance` and `d ≠ 0`,
with `next_depth` the depth of the next pin, 0 for the last pin), the right wall
is the one segment from `(c + hw, top + d_px)` to
`(c + extra_x, top + d_px - (extra_x - hw))` with
`extra_x = max(round(d / (d + next_depth) * pin_step), hw)`, the last primitive of
the pin; it is the default diagonal ending at `(c + hw + d_px, top)` exactly when
`extra_x = hw + d_px`. -/
theorem right_wall_interpolated (px : PixelScale) (hw step : Int) (m : KeyMakerGameModel)
    (ds : List PinDrawing) (k : Nat) (d : PinDrawing) (cur nxt : Nat)
    (hmin : m.format.min_depth_ind = 0)
    (hds : draw_pins px hw step m m.total_pin 1 0 0 = some ds) (hd : ds[k]? = some d)
    (hcur : m.depth[k]? = some cur) (hnxt : m.depth[k + 1]? = some nxt)
    (htest : (cur : Int) + (if k + 1 = m.total_pin then 0 else (nxt : Int))
        > m.format.clearance ∧ cur ≠ 0) :
    ∃ extra_x : Int,
      extra_x = max (px.round_product (cur : Int)
        ((cur : Int) + (if k + 1 = m.total_pin then 0 else (nxt : Int))) step) hw ∧
      d.post_extra_x_pixel = extra_x ∧
      d.right_wall = Primitive.line (px.pin_center m.format ((k + 1 : Nat) : Int) + hw)
        (px.top_contour m.format + px.depth_pixel m.format cur)
        (px.pin_center m.format ((k + 1 : Nat) : Int) + extra_x)
        (px.top_contour m.format + px.depth_pixel m.format cur - (extra_x - hw)) ∧
      PinDrawing.prims d = [d.guide, d.shoulder] ++ d.left_edge.toList ++
        [d.left_wall, Primitive.line (px.pin_center m.format ((k + 1 : Nat) : Int) + hw)
          (px.top_contour m.format + px.depth_pixel m.format cur)
          (px.pin_center m.format ((k + 1 : Nat) : Int) + extra_x)
          (px.top_contour m.format + px.depth_pixel m.format cur - (extra_x - hw))] ∧
      (d.right_wall = Primitive.line (px.pin_center m.format ((k + 1 : Nat) : Int) + hw)
          (px.top_contour m.format + px.depth_pixel m.format cur)
          (px.pin_center m.format ((k + 1 : Nat) : Int) + hw + px.depth_pixel m.format cur)
          (px.top_contour m.format) ↔
        extra_x = hw + px.depth_pixel m.format cur) := by
  obtain ⟨post1, pre1, hp⟩ := draw_pins_get px hw step m m.total_pin 1 0 0 ds hds k d hd
  have e1 : 1 + k = k + 1 := by omega
  rw [e1] at hp
  have hr0 : rd m.depth (((k + 1 : Nat) : Int) - 1) = some cur := by
    rw [← hcur]; exact rd_pred m.depth k
  have hr1 : rd m.depth ((k + 1 : Nat) : Int) = some nxt := by
    rw [← hnxt]; exact rd_cast m.depth (k + 1)
  obtain ⟨last_depth, _, hpost, hright, _, _, _⟩ :=
    draw_pin_fields px hw step m (k + 1) post1 pre1 d cur nxt hr0 hr1 hp
  have hnd : next_depth_of m (k + 1) nxt = if k + 1 = m.total_pin then 0 else (nxt : Int) := by
    simp only [next_depth_of, hmin, sub_zero]
  have hc : ((cur : Int) - m.format.min_depth_ind) = (cur : Int) := by rw [hmin]; omega
  have ht : (cur : Int) + (if k + 1 = m.total_pin then 0 else (nxt : Int))
      > m.format.clearance ∧ (cur : Int) ≠ m.format.min_depth_ind := by
    refine ⟨htest.1, ?_⟩
    rw [hmin]
    have := htest.2
    omega
  rw [hc, hnd, if_pos ht] at hpost
  rw [hc, hnd, if_pos ht, hpost] at hright
  refine ⟨_, rfl, hpost, hright, ?_, ?_⟩
  · simp only [PinDrawing.prims, hright]
  · rw [hright]
    simp only [Primitive.line.injEq, true_and]
    constructor
    · intro h; omega
    · intro h; omega

/-- The amended C11 at the scenario of the spec: six pins, pins 3 and 4 both at
depth 3, `clearance = 5`; the right wall of pin 3 is interpolated with
`extra_x = max(round(3 / 6 * 15), 4) = 8`. -/
theorem right_wall_interpolated_witness :
    ∃ ds d, draw_pins exact_scale 4 15 twin_cut_model twin_cut_model.total_pin 1 0 0
        = some ds ∧ ds[2]? = some d ∧
      d.post_extra_x_pixel = 8 ∧
      d.right_wall = Primitive.line
        (exact_scale.pin_center twin_cut_model.format ((2 + 1 : Nat) : Int) + 4)
        (exact_scale.top_contour twin_cut_model.format
          + exact_scale.depth_pixel twin_cut_model.format ((3 : Nat) : Int))
        (exact_scale.pin_center twin_cut_model.format ((2 + 1 : Nat) : Int) + 8)
        (exact_scale.top_contour twin_cut_model.format
          + exact_scale.depth_pixel twin_cut_model.format ((3 : Nat) : Int) - (8 - 4)) := by
  have h : ((draw_pins exact_scale 4 15 twin_cut_model twin_cut_model.total_pin 1 0 0).bind
      (fun ds => ds[2]?)).isSome = true := by
    decide
  obtain ⟨d, hd⟩ := Option.isSome_iff_exists.mp h
  obtain ⟨ds, hds, hd2⟩ := Option.bind_eq_some.mp hd
  obtain ⟨extra_x, hx, hpost, hright, _, _⟩ :=
    right_wall_interpolated exact_scale 4 15 twin_cut_model ds 2 d 3 3 rfl hds hd2 rfl rfl
      (by decide)
  have hx8 : extra_x = 8 := by
    rw [hx]
    have : (if 2 + 1 = twin_cut_model.total_pin then (0 : Int) else ((3 : Nat) : Int)) = 3 := by
      decide
    rw [this]
    have h6 : ((3 : Nat) : Int) + 3 = 6 := by norm_num
    have h3 : ((3 : Nat) : Int) = 3 := by norm_num
    rw [h6, h3, exact_round_product_three_six]
    decide
  rw [hx8] at hpost hright
  exact ⟨ds, d, hds, hd2, hpost, hright⟩

/-- C11 fails where the two segments meet.  Six pins, `min_depth_ind = 0`,
`clearance = 3`, pin 1 at depth 3 and pin 2 at depth 1, pixel scale evaluated
exactly (`c_1 = 25`, `hw = 4`, `d_1 = 7`, `top = 29`, `pin_step = 15`): the test
`3 + 1 > 3` and `3 ≠ 0` holds, `extra_x = max(round(3 / 4 * 15), 4) = 11 = hw + d_1`,
and the right wall drawn, the fifth primitive of the render, is the default
diagonal from (29, 36) to (36, 29). -/
theorem interpolated_wall_is_default :
    meeting_walls_model.depth = [3, 1, 0, 0, 0, 0, 0] ∧
    meeting_walls_model.format.min_depth_ind = 0 ∧
    (3 : Int) + 1 > meeting_walls_model.format.clearance ∧
    exact_scale.pin_center meeting_walls_model.format 1 = 25 ∧
    exact_scale.half_width meeting_walls_model.format = 4 ∧
    exact_scale.depth_pixel meeting_walls_model.format 3 = 7 ∧
    exact_scale.top_contour meeting_walls_model.format = 29 ∧
    (key_maker_view_game_draw_callback exact_scale DrawStatics.start
      meeting_walls_model).map (fun r => r.2[4]?)
      = some (some (Primitive.line (25 + 4) (29 + 7) (25 + 4 + 7) 29)) := by
  refine ⟨rfl, rfl, by decide, exact_pin_center_one _ _ _ _ _, exact_half_width _ _ _ _ _,
    exact_depth_pixel_three _ _ _ _ _, exact_top_contour _ _ _ _ _, ?_⟩
  simp [key_maker_view_game_draw_callback, DrawStatics.start, meeting_walls_model,
    sample_model, draw_pins, draw_pin, rd, depth_readout, depth_str_loop, to_u8,
    PinDrawing.prims, sample_fields, digits_zero, digits_one, digits_three, exact_half_width,
    exact_pin_step, exact_top_contour, exact_pin_center_one, exact_depth_pixel_three,
    exact_round_product_three_four]

/-! ## C12: The extension carried to the next pin -/

/-- C12 does not hold of the code: `post_extra_x_pixel` is written only when a
right wall is drawn as intersecting, so the left wall of pin `i` reads whatever the
last such wall left.  Six pins, `min_depth_ind = 0`, `clearance = 5`, half width 4,
step 15, pixel scale evaluated exactly.  With pin 1 uncut and pin 2 at depth 6 the
right wall of pin 1 computes nothing, the accumulator still holds its initial 0
after pin 1, and the intersecting left wall of pin 2 starts `max(15 - 0, 4) = 15`
pixels left of `c_2 = 41`.  With pins 1 and 3 at depth 6 and pin 2 uncut the
accumulator holds the 15 of pin 1 after pin 2, and the intersecting left wall of
pin 3 starts `max(15 - 15, 4) = 4` pixels left of `c_3 = 56`. -/
theorem left_wall_reads_stale_extension :
    (draw_pins exact_scale 4 15 stale_zero_model stale_zero_model.total_pin 1 0 0).map
      (fun ds => (ds[0]?.map (fun d => d.post_extra_x_pixel),
        ds[1]?.map (fun d => (d.pre_extra_x_pixel, d.left_wall))))
      = some (some 0, some (15, Primitive.line (41 - 15) 32 37 43)) ∧
    (draw_pins exact_scale 4 15 stale_far_model stale_far_model.total_pin 1 0 0).map
      (fun ds => (ds[0]?.map (fun d => d.post_extra_x_pixel),
        ds[1]?.map (fun d => d.post_extra_x_pixel),
        ds[2]?.map (fun d => (d.pre_extra_x_pixel, d.left_wall))))
      = some (some 15, some 15, some (4, Primitive.line (56 - 4) 43 52 43)) := by
  constructor
  · simp [stale_zero_model, sample_model, draw_pins, draw_pin, rd, to_u8, sample_fields,
      exact_top_contour, exact_pin_center_two, exact_depth_pixel_six, exact_depth_pixel_zero]
  · simp [stale_far_model, sample_model, draw_pins, draw_pin, rd, to_u8, sample_fields,
      exact_top_contour, exact_pin_center_three, exact_depth_pixel_six,
      exact_depth_pixel_zero, exact_round_product_six]

/-! ## C13: The last pin's next depth -/

/-- C13 does not hold of the code: for the last pin `next_depth` is set to the raw
`min_depth_ind`, not to 0.  Five pins, depths `1..7`, `clearance = 3`, half width 4,
step 15, pixel scale evaluated exactly (`c_5 = 87`, `top = 29`).  With the last pin
at raw depth 5 (normalized 4) the interpolation divides by `4 + 1`:
`extra_x = max(round(4 / 5 * 15), 4) = 12` and the right wall runs from (91, 38) to
(99, 30), where `next_depth = 0` gives `round(4 / 4 * 15) = 15`.  With the last pin
at raw depth 4 (normalized 3, not above the clearance) the test `3 + 1 > 3` holds
and the intersecting branch sets `extra_x = 11`. -/
theorem last_pin_next_depth_is_raw_min :
    (draw_pins exact_scale 4 15 raw_min_model raw_min_model.total_pin 1 0 0).map
      (fun ds => ds[4]?.map (fun d => (d.post_extra_x_pixel, d.right_wall)))
      = some (some (12, Primitive.line 91 38 99 30)) ∧
    exact_scale.round_product 4 (4 + 0) 15 = 15 ∧
    (draw_pins exact_scale 4 15 raw_min_edge_model raw_min_edge_model.total_pin 1 0 0).map
      (fun ds => (ds[3]?.map (fun d => d.post_extra_x_pixel),
        ds[4]?.map (fun d => d.post_extra_x_pixel)))
      = some (some 0, some 11) ∧
    ¬ ((3 : Int) + 0 > raw_min_edge_model.format.clearance) := by
  refine ⟨?_, exact_round_product_four_four, ?_, by decide⟩
  · simp [raw_min_model, sample_model, draw_pins, draw_pin, rd, to_u8, sample_fields,
      exact_top_contour, exact_pin_center_five, exact_depth_pixel_four,
      exact_round_product_four_five]
  · simp [raw_min_edge_model, sample_model, draw_pins, draw_pin, rd, to_u8, sample_fields,
      exact_round_product_three_four]

/-! ## C14: The depth readout -/

/-- C14, as the code has it: `depth_str` has room for one character per pin.  For
every format with `max_depth_ind ≤ 9` and every model that holds, for each of its
`pin_num` pins, a depth in `[min_depth_ind, max_depth_ind]`, the text primitive a
draw call draws at `(0, 10)`, its last primitive, is `"depth: "` followed, left to
right for pins `1..pin_num`, by the decimal digits of each pin's raw depth index,
none omitted or cut; and the draw call returns when the block holds one more cell
than there are pins. -/
theorem depth_readout_complete (px : PixelScale) (st : DrawStatics) (m : KeyMakerGameModel)
    (hmax : m.format.max_depth_ind ≤ 9)
    (htp : (m.total_pin : Int) = m.format.pin_num)
    (hrange : ∀ k : Nat, (k : Int) < m.format.pin_num → ∃ v, m.depth[k]? = some v ∧
      m.format.min_depth_ind ≤ (v : Int) ∧ (v : Int) ≤ m.format.max_depth_ind) :
    (∀ r, key_maker_view_game_draw_callback px st m = some r →
      r.2.getLast? = some (Primitive.str 0 10
        ("depth: " ++ String.mk
          ((m.depth.take m.format.pin_num.toNat).flatMap (Nat.toDigits 10))))) ∧
    (m.total_pin + 1 ≤ m.depth.length →
      ∃ r, key_maker_view_game_draw_callback px st m = some r) := by
  have hcells : ∀ k, k < m.total_pin → ∃ v, m.depth[k]? = some v ∧ v ≤ 9 := by
    intro k hk
    obtain ⟨v, hv, _, hhi⟩ := hrange k (by omega)
    exact ⟨v, hv, by omega⟩
  have hn : m.format.pin_num.toNat = m.total_pin := by omega
  have hx := depth_readout_digits m hcells
  constructor
  · intro r hr
    obtain ⟨xstr, hx1, hlast⟩ := draw_callback_last px st m r hr
    rw [hx] at hx1
    rw [hlast, hn, ← Option.some.inj hx1]
  · intro hlen
    obtain ⟨r, hr, _⟩ := draw_callback_total px st m _ hlen hx
    exact ⟨r, hr⟩

/-- The amended C14 at the five-pin model with the last pin at depth 5: the draw
call returns and the readout is `"depth: 00135"`. -/
theorem depth_readout_complete_witness :
    ∃ r, key_maker_view_game_draw_callback exact_scale DrawStatics.start last_pin_model
        = some r ∧
      r.2.getLast? = some (Primitive.str 0 10 "depth: 00135") := by
  have h := depth_readout_complete exact_scale DrawStatics.start last_pin_model
    (by decide) (by decide)
    (by
      intro k hk
      have hk5 : k < 5 := by
        have : last_pin_model.format.pin_num = 5 := rfl
        omega
      interval_cases k <;> exact ⟨_, rfl, by decide, by decide⟩)
  obtain ⟨r, hr⟩ := h.2 (by decide)
  exact ⟨r, hr, h.1 r hr⟩

/-- C14 fails when a depth index has two digits.  Five pins with depths `0..10`,
every pin at depth 10: `depth_str` has six bytes, the third number is cut to its
first digit and ends the loop, and the readout is `"depth: 10101"`, not
`"depth: 1010101010"`. -/
theorem depth_readout_cut :
    two_digit_model.depth = [10, 10, 10, 10, 10, 0] ∧
    two_digit_model.format.min_depth_ind = 0 ∧ two_digit_model.format.max_depth_ind = 10 ∧
    depth_readout two_digit_model = some "depth: 10101" ∧
    (key_maker_view_game_draw_callback exact_scale DrawStatics.start two_digit_model).map
      (fun r => r.2.getLast?) = some (some (Primitive.str 0 10 "depth: 10101")) := by
  have hx : depth_readout two_digit_model = some "depth: 10101" := by decide
  refine ⟨rfl, rfl, rfl, hx, ?_⟩
  obtain ⟨r, hr, hlast⟩ :=
    draw_callback_total exact_scale DrawStatics.start two_digit_model _ (by decide) hx
  rw [hr]
  simp [hlast]

/-! ## C15: The left wall of pin 1 -/

/-- C15: in every render with at least one pin, a half width `hw ≥ 0` and a pixel
depth `d_1 ≥ 0` for pin 1, the left wall drawn for pin 1 is the segment from
`(c_1 - hw - d_1, top)` to `(c_1 - hw, top + d_1)`, whichever branch is taken:
`pre_extra` is seeded as `max(d_1 + hw, 0) = d_1 + hw`, which makes the intersecting
branch draw the segment of the default branch; and the horizontal line from the
left edge of the display ends where that segment starts.  The pin loop returns
when the block holds one more cell than there are pins. -/
theorem first_pin_left_wall (px : PixelScale) (hw step : Int) (m : KeyMakerGameModel)
    (v : Nat) (hpin : 1 ≤ m.total_pin) (hv : m.depth[0]? = some v) (hhw : 0 ≤ hw)
    (hd1 : 0 ≤ px.depth_pixel m.format ((v : Int) - m.format.min_depth_ind)) :
    (∀ ds, draw_pins px hw step m m.total_pin 1 0 0 = some ds →
      ∃ d, ds[0]? = some d ∧
        d.pre_extra_x_pixel
          = px.depth_pixel m.format ((v : Int) - m.format.min_depth_ind) + hw ∧
        d.left_edge = some (Primitive.line 0 (px.top_contour m.format)
          (px.pin_center m.format 1 - hw
            - px.depth_pixel m.format ((v : Int) - m.format.min_depth_ind))
          (px.top_contour m.format)) ∧
        d.left_wall = Primitive.line
          (px.pin_center m.format 1 - hw
            - px.depth_pixel m.format ((v : Int) - m.format.min_depth_ind))
          (px.top_contour m.format) (px.pin_center m.format 1 - hw)
          (px.top_contour m.format
            + px.depth_pixel m.format ((v : Int) - m.format.min_depth_ind))) ∧
    (m.total_pin + 1 ≤ m.depth.length →
      ∃ ds, draw_pins px hw step m m.total_pin 1 0 0 = some ds) := by
  constructor
  · intro ds hds
    have hl := draw_pins_length px hw step m m.total_pin 1 0 0 ds hds
    obtain ⟨d, hd⟩ : ∃ d, ds[0]? = some d :=
      ⟨ds[0], List.getElem?_eq_getElem (by omega)⟩
    have hp := draw_pins_first px hw step m m.total_pin 1 0 0 ds d hds hd
    have hr0 : rd m.depth (((1 : Nat) : Int) - 1) = some v := by
      rw [← hv]; exact rd_pred m.depth 0
    have hnx : ∃ nxt, rd m.depth ((1 : Nat) : Int) = some nxt := by
      rcases hn : rd m.depth ((1 : Nat) : Int) with _ | nxt
      · exfalso
        unfold draw_pin at hp
        simp only [Nat.cast_one] at hn
        cases h0 : rd m.depth 0 <;> simp [h0, hn] at hp
      · exact ⟨nxt, rfl⟩
    obtain ⟨nxt, hr1⟩ := hnx
    obtain ⟨last_depth, _, _, _, hpre, hleft, hedge⟩ :=
      draw_pin_fields px hw step m 1 0 0 d v nxt hr0 hr1 hp
    have hmax : max (px.depth_pixel m.format ((v : Int) - m.format.min_depth_ind) + hw) 0
        = px.depth_pixel m.format ((v : Int) - m.format.min_depth_ind) + hw := by
      apply max_eq_left; omega
    have hpre1 : d.pre_extra_x_pixel
        = px.depth_pixel m.format ((v : Int) - m.format.min_depth_ind) + hw := by
      rw [hpre]
      simp only [ne_eq, not_true_eq_false, if_false, if_true, hmax, ite_self]
    refine ⟨d, hd, hpre1, ?_, ?_⟩
    · rw [hedge]; simp only [if_true, Nat.cast_one]
    · rw [hleft, hpre1]
      simp only [Nat.cast_one]
      split
      · simp only [Primitive.line.injEq, and_true]
        constructor <;> omega
      · rfl
  · intro hlen
    obtain ⟨ds, hds, _⟩ :=
      draw_pins_total px hw step m m.total_pin 1 0 0 (le_refl 1) (by omega)
    exact ⟨ds, hds⟩

/-- C15 at the six-pin model with pin 1 at depth 6, half width 4 and the pixel
scale evaluated exactly (`d_1 = 14`): the loop returns and the left wall of pin 1,
drawn by the intersecting branch (`0 + 6 > 5`), is the default segment. -/
theorem first_pin_left_wall_witness :
    ∃ ds d, draw_pins exact_scale 4 15 uncut_neighbour_model
        uncut_neighbour_model.total_pin 1 0 0 = some ds ∧ ds[0]? = some d ∧
      d.left_wall = Primitive.line
        (exact_scale.pin_center uncut_neighbour_model.format 1 - 4
          - exact_scale.depth_pixel uncut_neighbour_model.format
              (((6 : Nat) : Int) - uncut_neighbour_model.format.min_depth_ind))
        (exact_scale.top_contour uncut_neighbour_model.format)
        (exact_scale.pin_center uncut_neighbour_model.format 1 - 4)
        (exact_scale.top_contour uncut_neighbour_model.format
          + exact_scale.depth_pixel uncut_neighbour_model.format
              (((6 : Nat) : Int) - uncut_neighbour_model.format.min_depth_ind)) := by
  have h := first_pin_left_wall exact_scale 4 15 uncut_neighbour_model 6 (by decide) rfl
    (by decide)
    (by
      have h6 : (((6 : Nat) : Int) - uncut_neighbour_model.format.min_depth_ind) = 6 := by
        decide
      rw [h6]
      show 0 ≤ exact_scale.depth_pixel (sample_format 6 0 9 7 5) 6
      rw [exact_depth_pixel_six]
      decide)
  obtain ⟨ds, hds⟩ := h.2 (by decide)
  obtain ⟨d, hd, _, _, hleft⟩ := h.1 ds hds
  exact ⟨ds, d, hds, hd, hleft⟩

/-! ## C16: The interpolation ratio -/

/-- C16: for every format with `clearance ≥ 0` and `min_depth_ind ≥ 0`, whose pin
increment is a length (not negative) and whose pin step is in the range of `int`,
and every pin whose depth and whose next cell are at least `min_depth_ind`: whenever
the right wall is drawn as intersecting, the divisor `current_depth + next_depth`
is positive, the ratio `current_depth / (current_depth + next_depth)` lies in
`[0, 1]`, exactly and as the `double` the code computes, and
`extra_x = max(round(ratio * pin_step), hw)`, computed in binary64, satisfies
`hw ≤ extra_x ≤ max(pin_step, hw)`. -/
theorem interpolation_well_defined (hw : Int) (m : KeyMakerGameModel)
    (ds : List PinDrawing) (k : Nat) (d : PinDrawing) (cur nxt : Nat)
    (hinc : 0 ≤ m.format.pin_increment_inch)
    (hint : binary64_scale.pin_step m.format < 2 ^ 31)
    (hclr : 0 ≤ m.format.clearance) (hmin : 0 ≤ m.format.min_depth_ind)
    (hds : draw_pins binary64_scale hw (binary64_scale.pin_step m.format) m
      m.total_pin 1 0 0 = some ds)
    (hd : ds[k]? = some d)
    (hcur : m.depth[k]? = some cur) (hnxt : m.depth[k + 1]? = some nxt)
    (hcur_ge : m.format.min_depth_ind ≤ (cur : Int))
    (hnxt_ge : m.format.min_depth_ind ≤ (nxt : Int))
    (htest : (cur : Int) - m.format.min_depth_ind + next_depth_of m (k + 1) nxt
        > m.format.clearance ∧
      (cur : Int) - m.format.min_depth_ind ≠ m.format.min_depth_ind) :
    0 < (cur : Int) - m.format.min_depth_ind + next_depth_of m (k + 1) nxt ∧
    0 ≤ (((cur : Int) - m.format.min_depth_ind : Int) : ℚ) /
      (((cur : Int) - m.format.min_depth_ind + next_depth_of m (k + 1) nxt : Int) : ℚ) ∧
    (((cur : Int) - m.format.min_depth_ind : Int) : ℚ) /
      (((cur : Int) - m.format.min_depth_ind + next_depth_of m (k + 1) nxt : Int) : ℚ) ≤ 1 ∧
    0 ≤ binary64 ((((cur : Int) - m.format.min_depth_ind : Int) : ℚ) /
      (((cur : Int) - m.format.min_depth_ind + next_depth_of m (k + 1) nxt : Int) : ℚ)) ∧
    binary64 ((((cur : Int) - m.format.min_depth_ind : Int) : ℚ) /
      (((cur : Int) - m.format.min_depth_ind + next_depth_of m (k + 1) nxt : Int) : ℚ)) ≤ 1 ∧
    d.post_extra_x_pixel = max (c_round (binary64
      (binary64 ((((cur : Int) - m.format.min_depth_ind : Int) : ℚ) /
        (((cur : Int) - m.format.min_depth_ind + next_depth_of m (k + 1) nxt : Int) : ℚ))
        * ((binary64_scale.pin_step m.format : Int) : ℚ)))) hw ∧
    hw ≤ d.post_extra_x_pixel ∧
    d.post_extra_x_pixel ≤ max (binary64_scale.pin_step m.format) hw := by
  obtain ⟨post1, pre1, hp⟩ :=
    draw_pins_get binary64_scale hw (binary64_scale.pin_step m.format) m m.total_pin 1 0 0
      ds hds k d hd
  have e1 : 1 + k = k + 1 := by omega
  rw [e1] at hp
  have hr0 : rd m.depth (((k + 1 : Nat) : Int) - 1) = some cur := by
    rw [← hcur]; exact rd_pred m.depth k
  have hr1 : rd m.depth ((k + 1 : Nat) : Int) = some nxt := by
    rw [← hnxt]; exact rd_cast m.depth (k + 1)
  obtain ⟨last_depth, _, hpost, _, _, _, _⟩ :=
    draw_pin_fields binary64_scale hw (binary64_scale.pin_step m.format) m (k + 1) post1 pre1
      d cur nxt hr0 hr1 hp
  rw [if_pos htest] at hpost
  have hnd : 0 ≤ next_depth_of m (k + 1) nxt := by
    unfold next_depth_of
    split
    · exact hmin
    · omega
  have hcd : 0 ≤ (cur : Int) - m.format.min_depth_ind := by omega
  have hpos : 0 < (cur : Int) - m.format.min_depth_ind + next_depth_of m (k + 1) nxt := by
    have := htest.1
    omega
  obtain ⟨hq0, hq1, _, _⟩ :=
    c_round_share ((cur : Int) - m.format.min_depth_ind)
      ((cur : Int) - m.format.min_depth_ind + next_depth_of m (k + 1) nxt) 0 hcd hpos
      (by omega)
  obtain ⟨hb0, hb1, _, hup⟩ :=
    binary64_share ((cur : Int) - m.format.min_depth_ind)
      ((cur : Int) - m.format.min_depth_ind + next_depth_of m (k + 1) nxt)
      (binary64_scale.pin_step m.format) hcd hpos (by omega)
      (binary64_pin_step_nonneg m.format hinc) hint
  refine ⟨hpos, hq0, hq1, hb0, hb1, hpost, ?_, ?_⟩
  · rw [hpost]; exact le_max_right _ _
  · rw [hpost]
    exact max_le_max hup (le_refl hw)

/-- C16 at pin 3 of the six-pin model with pins 3 and 4 at depth 3 and half width
4: the pin step is 15, the divisor is `3 + 3`, and `extra_x = 8` lies between 4 and
15. -/
theorem interpolation_well_defined_witness :
    ∃ ds d, draw_pins binary64_scale 4 (binary64_scale.pin_step twin_cut_model.format)
        twin_cut_model twin_cut_model.total_pin 1 0 0 = some ds ∧ ds[2]? = some d ∧
      binary64_scale.pin_step twin_cut_model.format = 15 ∧
      0 < ((3 : Nat) : Int) - twin_cut_model.format.min_depth_ind
        + next_depth_of twin_cut_model (2 + 1) 3 ∧
      d.post_extra_x_pixel = 8 ∧
      (4 : Int) ≤ d.post_extra_x_pixel ∧ d.post_extra_x_pixel ≤ max 15 4 := by
  have hstep : binary64_scale.pin_step twin_cut_model.format = 15 :=
    binary64_pin_step_sample 6 0 9 7 5
  obtain ⟨ds, hds, hlen⟩ :=
    draw_pins_total binary64_scale 4 (binary64_scale.pin_step twin_cut_model.format)
      twin_cut_model twin_cut_model.total_pin 1 0 0 (le_refl 1) (by decide)
  have hl : 2 < ds.length := by
    rw [hlen]
    decide
  obtain ⟨hpos, _, _, _, _, hpost, hlo, hhi⟩ :=
    interpolation_well_defined 4 twin_cut_model ds 2 ds[2] 3 3
      (by show (0 : ℚ) ≤ 0.15; norm_num)
      (by rw [hstep]; norm_num) (by decide) (by decide) hds
      (List.getElem?_eq_getElem hl) rfl rfl (by decide) (by decide) (by decide)
  rw [hstep] at hhi
  refine ⟨ds, ds[2], hds, List.getElem?_eq_getElem hl, hstep, hpos, ?_, hlo, hhi⟩
  rw [hpost, hstep]
  have hn : ((3 : Nat) : Int) - twin_cut_model.format.min_depth_ind = 3 := by decide
  have hden : ((3 : Nat) : Int) - twin_cut_model.format.min_depth_ind
      + next_depth_of twin_cut_model (2 + 1) 3 = 6 := by decide
  rw [hden, hn]
  have h8 : c_round (binary64 (binary64 (((3 : Int) : ℚ) / ((6 : Int) : ℚ))
      * ((15 : Int) : ℚ))) = 8 := binary64_round_product_three_six
  rw [h8]
  decide

end KeyCopier
